import Mathlib

/-
Verification of the duplicate-file tool in src/advanced_dedup.cpp
(class InteractiveFileDeduplicator).

Modelling conventions of this shallow embedding:
* A file's content is a `List Nat` of byte values; its size is the list length.
* `size_t` / `uintmax_t` arithmetic is 64-bit unsigned: expressions the C++
  computes in those types are taken modulo `usizeMod = 2^64` exactly where the
  C++ expression can exceed the width; `uint32_t` arithmetic is modulo
  `u32Mod = 2^32`.
* Console input is an explicit list of lines (one `String` per `getline`);
  a `getline` at end of input yields the empty string.
* The filesystem is an explicit list of entries (path, size, mtime); the
  deleter additionally returns the trace of `fs::remove` calls it issued.
* I/O failures (unopenable files, short reads) are not representable: file
  contents are given, so every read succeeds in full.  The corresponding
  error branches of the C++ are therefore never taken in the model.
-/

/-- Modulus of 64-bit unsigned (`size_t` / `uintmax_t`) arithmetic. -/
def usizeMod : Nat := 18446744073709551616

/-- Modulus of 32-bit unsigned (`uint32_t`) arithmetic. -/
def u32Mod : Nat := 4294967296

/-- Block size of the byte-exact comparison loop (`bufferSize = 1024 * 64`). -/
def bufferSize : Nat := 65536

/-- Comparison loop of `areFilesIdentical` (lines 149-167): compare the two
files in blocks of `bufferSize` bytes until all of `file1` is consumed or a
block differs.  The loop runs while `totalRead < size1`; here the not yet
compared suffixes are passed along and the fuel (initially `file1.length`,
each round consumes at least one byte) makes the recursion structural. -/
def compareBlocks : Nat → List Nat → List Nat → Bool
  | 0, f1, _ => f1.isEmpty
  | fuel + 1, f1, f2 =>
    if f1.isEmpty then true
    else
      let toRead := min bufferSize f1.length
      if f1.take toRead = f2.take toRead then
        compareBlocks fuel (f1.drop toRead) (f2.drop toRead)
      else false

/-- Embedding of `areFilesIdentical` (lines 124-170): sizes are compared
first, a zero size short-circuits to `true`, otherwise the 64 KiB block loop
runs.  The `gcount` checks of the C++ cannot fail in the pure model because
both suffixes always deliver the requested bytes (sizes being equal). -/
def areFilesIdentical (file1 file2 : List Nat) : Bool :=
  if file1.length ≠ file2.length then false
  else if file1.length = 0 then true
  else compareBlocks file1.length file1 file2

theorem compareBlocks_iff (fuel : Nat) : ∀ (f1 f2 : List Nat),
    f1.length ≤ fuel → f1.length = f2.length →
    (compareBlocks fuel f1 f2 = true ↔ f1 = f2) := by
  induction fuel with
  | zero =>
    intro f1 f2 hle hlen
    simp only [compareBlocks, List.isEmpty_iff]
    constructor
    · intro h1
      subst h1
      exact (List.eq_nil_of_length_eq_zero hlen.symm).symm
    · intro h
      subst h
      exact List.eq_nil_of_length_eq_zero (Nat.le_zero.mp hle)
  | succ fuel ih =>
    intro f1 f2 hle hlen
    by_cases hemp : f1.isEmpty
    · simp only [compareBlocks, hemp, if_true]
      rw [List.isEmpty_iff] at hemp
      subst hemp
      simp only [true_iff]
      exact (List.eq_nil_of_length_eq_zero hlen.symm).symm
    · simp only [compareBlocks, hemp, if_false, Bool.false_eq_true]
      rw [List.isEmpty_iff] at hemp
      have hpos : 0 < f1.length := List.length_pos.mpr hemp
      have htr : 0 < min bufferSize f1.length := by
        have : 0 < bufferSize := by decide
        omega
      by_cases htake : f1.take (min bufferSize f1.length) = f2.take (min bufferSize f1.length)
      · simp only [htake, if_true]
        have hdlen : (f1.drop (min bufferSize f1.length)).length ≤ fuel := by
          simp only [List.length_drop]
          omega
        have hdeq : (f1.drop (min bufferSize f1.length)).length
            = (f2.drop (min bufferSize f1.length)).length := by
          simp only [List.length_drop]
          omega
        rw [ih _ _ hdlen hdeq]
        constructor
        · intro hdrop
          calc f1 = f1.take (min bufferSize f1.length) ++ f1.drop (min bufferSize f1.length) :=
                (List.take_append_drop _ _).symm
            _ = f2.take (min bufferSize f1.length) ++ f2.drop (min bufferSize f1.length) := by
                rw [htake, hdrop]
            _ = f2 := List.take_append_drop _ _
        · intro h; rw [h]
      · simp only [htake, if_false]
        constructor
        · intro h; exact absurd h (by simp)
        · intro h; exact absurd (by rw [h]) htake

/-- The comparator decides byte-list equality: helper shared by several
claims below. -/
theorem areFilesIdentical_iff (f1 f2 : List Nat) :
    areFilesIdentical f1 f2 = true ↔ f1 = f2 := by
  unfold areFilesIdentical
  by_cases hlen : f1.length ≠ f2.length
  · rw [if_pos hlen]
    constructor
    · intro h; exact absurd h (by simp)
    · intro h; exact absurd (congrArg List.length h) hlen
  · push_neg at hlen
    rw [if_neg (by omega)]
    by_cases hz : f1.length = 0
    · rw [if_pos hz]
      have h1 : f1 = [] := List.eq_nil_of_length_eq_zero hz
      have h2 : f2 = [] := List.eq_nil_of_length_eq_zero (hlen ▸ hz)
      simp [h1, h2]
    · rw [if_neg hz]
      exact compareBlocks_iff f1.length f1 f2 le_rfl hlen

/-- Inner `j` loop of `findExactDuplicates` (lines 525-536) for one anchor:
walk the remaining candidates (file paired with its `processed` flag), collect
every later unprocessed file that compares identical to the anchor (marking it
processed), and return (collected files in encounter order, updated state). -/
def innerPass (anchor : List Nat) : List (List Nat × Bool) → List (List Nat) × List (List Nat × Bool)
  | [] => ([], [])
  | (g, true) :: rest =>
    let r := innerPass anchor rest
    (r.1, (g, true) :: r.2)
  | (g, false) :: rest =>
    if areFilesIdentical anchor g then
      let r := innerPass anchor rest
      (g :: r.1, (g, true) :: r.2)
    else
      let r := innerPass anchor rest
      (r.1, (g, false) :: r.2)

/-- Outer `i` loop of `findExactDuplicates` (lines 518-541): skip processed
records, anchor a group at each unprocessed one, run the inner pass, and emit
the group when it has more than one member.  The fuel (initially the number of
candidates; the inner pass preserves the length of the remainder) makes the
recursion structural. -/
def scanFrom : Nat → List (List Nat × Bool) → List (List (List Nat))
  | 0, _ => []
  | _ + 1, [] => []
  | fuel + 1, (_, true) :: rest => scanFrom fuel rest
  | fuel + 1, (f, false) :: rest =>
    let r := innerPass f rest
    let group := f :: r.1
    if 1 < group.length then group :: scanFrom fuel r.2
    else scanFrom fuel r.2

/-- Embedding of `findExactDuplicates` (lines 510-544): all candidates start
unprocessed (`std::vector<bool> processed(candidateGroup.size(), false)`). -/
def findExactDuplicates (candidateGroup : List (List Nat)) : List (List (List Nat)) :=
  scanFrom candidateGroup.length (candidateGroup.map (fun f => (f, false)))

theorem innerPass_length (anchor : List Nat) : ∀ (l : List (List Nat × Bool)),
    (innerPass anchor l).2.length = l.length := by
  intro l
  induction l with
  | nil => simp [innerPass]
  | cons p rest ih =>
    obtain ⟨g, flag⟩ := p
    cases flag
    · by_cases h : areFilesIdentical anchor g
      · simp [innerPass, h, ih]
      · simp [innerPass, h, ih]
    · simp [innerPass, ih]

theorem innerPass_files (anchor : List Nat) : ∀ (l : List (List Nat × Bool)),
    (innerPass anchor l).2.map Prod.fst = l.map Prod.fst := by
  intro l
  induction l with
  | nil => simp [innerPass]
  | cons p rest ih =>
    obtain ⟨g, flag⟩ := p
    cases flag
    · by_cases h : areFilesIdentical anchor g
      · simp [innerPass, h, ih]
      · simp [innerPass, h, ih]
    · simp [innerPass, ih]

theorem innerPass_matches (anchor : List Nat) : ∀ (l : List (List Nat × Bool)),
    ∀ g ∈ (innerPass anchor l).1, areFilesIdentical anchor g = true := by
  intro l
  induction l with
  | nil => simp [innerPass]
  | cons p rest ih =>
    obtain ⟨g, flag⟩ := p
    cases flag
    · by_cases h : areFilesIdentical anchor g
      · simp only [innerPass, h, if_true]
        intro x hx
        rcases List.mem_cons.mp hx with h1 | h2
        · subst h1; exact h
        · exact ih x h2
      · simp only [innerPass, h, Bool.false_eq_true, if_false]
        exact ih
    · simp only [innerPass]
      exact ih

theorem innerPass_matches_sublist (anchor : List Nat) : ∀ (l : List (List Nat × Bool)),
    (innerPass anchor l).1.Sublist (l.map Prod.fst) := by
  intro l
  induction l with
  | nil => simp [innerPass]
  | cons p rest ih =>
    obtain ⟨g, flag⟩ := p
    cases flag
    · by_cases h : areFilesIdentical anchor g
      · simp only [innerPass, h, if_true, List.map_cons]
        exact List.Sublist.cons₂ g ih
      · simp only [innerPass, h, Bool.false_eq_true, if_false, List.map_cons]
        exact List.Sublist.cons g ih
    · simp only [innerPass, List.map_cons]
      exact List.Sublist.cons g ih

theorem scanFrom_groups (fuel : Nat) : ∀ (st : List (List Nat × Bool)),
    ∀ G ∈ scanFrom fuel st,
      2 ≤ G.length ∧ (∀ a ∈ G, ∀ b ∈ G, a = b) ∧ G.Sublist (st.map Prod.fst) := by
  induction fuel with
  | zero => intro st G hG; simp [scanFrom] at hG
  | succ fuel ih =>
    intro st G hG
    match st with
    | [] => simp [scanFrom] at hG
    | (f, true) :: rest =>
      have h := ih rest G hG
      exact ⟨h.1, h.2.1, h.2.2.trans (by simp [List.sublist_cons_self])⟩
    | (f, false) :: rest =>
      simp only [scanFrom] at hG
      by_cases hlen : 1 < (f :: (innerPass f rest).1).length
      · rw [if_pos hlen] at hG
        rcases List.mem_cons.mp hG with hG1 | hG2
        · subst hG1
          refine ⟨hlen, ?_, ?_⟩
          · intro a ha b hb
            have key : ∀ x ∈ f :: (innerPass f rest).1, x = f := by
              intro x hx
              rcases List.mem_cons.mp hx with h1 | h2
              · exact h1
              · exact ((areFilesIdentical_iff f x).mp
                  (innerPass_matches f rest x h2)).symm
            rw [key a ha, key b hb]
          · simp only [List.map_cons]
            exact List.Sublist.cons₂ f (innerPass_matches_sublist f rest)
        · have h := ih _ G hG2
          refine ⟨h.1, h.2.1, ?_⟩
          have := h.2.2
          rw [innerPass_files f rest] at this
          exact this.trans (by simp [List.sublist_cons_self])
      · rw [if_neg hlen] at hG
        have h := ih _ G hG
        refine ⟨h.1, h.2.1, ?_⟩
        have := h.2.2
        rw [innerPass_files f rest] at this
        exact this.trans (by simp [List.sublist_cons_self])

theorem scanFrom_heads (fuel : Nat) : ∀ (st : List (List Nat × Bool)),
    ((scanFrom fuel st).filterMap List.head?).Sublist (st.map Prod.fst) := by
  induction fuel with
  | zero => intro st; simp [scanFrom]
  | succ fuel ih =>
    intro st
    match st with
    | [] => simp [scanFrom]
    | (f, true) :: rest =>
      simp only [scanFrom, List.map_cons]
      exact (ih rest).trans (List.sublist_cons_self _ _)
    | (f, false) :: rest =>
      simp only [scanFrom]
      by_cases hlen : 1 < (f :: (innerPass f rest).1).length
      · rw [if_pos hlen]
        simp only [List.filterMap_cons, List.head?, List.map_cons]
        have h2 := ih (innerPass f rest).2
        rw [innerPass_files f rest] at h2
        exact List.Sublist.cons₂ f h2
      · rw [if_neg hlen]
        have h2 := ih (innerPass f rest).2
        rw [innerPass_files f rest] at h2
        simp only [List.map_cons]
        exact h2.trans (List.sublist_cons_self _ _)

/-- Insertion step of an insertion sort driven by a strict "comes before"
comparator `f`, used to model `std::sort`.  All element sequences sorted in
this development have pairwise distinct elements under a strict total order,
for which every correct sort produces the same sequence, so insertion sort is
a faithful model of `std::sort`. -/
def cppInsert {α : Type} (f : α → α → Bool) (p : α) : List α → List α
  | [] => [p]
  | q :: rest => if f p q then p :: q :: rest else q :: cppInsert f p rest

/-- Model of `std::sort` with comparator `f` (see `cppInsert`). -/
def cppSort {α : Type} (f : α → α → Bool) : List α → List α
  | [] => []
  | p :: rest => cppInsert f p (cppSort f rest)

theorem mem_cppInsert {α : Type} (f : α → α → Bool) (p : α) :
    ∀ (l : List α) (a : α), a ∈ cppInsert f p l ↔ a = p ∨ a ∈ l := by
  intro l
  induction l with
  | nil => intro a; simp [cppInsert]
  | cons q rest ih =>
    intro a
    by_cases h : f p q = true
    · unfold cppInsert
      rw [if_pos h]
      simp only [List.mem_cons]
      try tauto
    · unfold cppInsert
      rw [if_neg h]
      simp only [List.mem_cons, ih a]
      try tauto

theorem mem_cppSort {α : Type} (f : α → α → Bool) :
    ∀ (l : List α) (a : α), a ∈ cppSort f l ↔ a ∈ l := by
  intro l
  induction l with
  | nil => intro a; simp [cppSort]
  | cons q rest ih =>
    intro a
    simp [cppSort, mem_cppInsert, ih]

theorem cppSort_length {α : Type} (f : α → α → Bool) :
    ∀ (l : List α), (cppSort f l).length = l.length := by
  have hins : ∀ (p : α) (l : List α), (cppInsert f p l).length = l.length + 1 := by
    intro p l
    induction l with
    | nil => simp [cppInsert]
    | cons q rest ih =>
      by_cases h : f p q = true
      · unfold cppInsert; rw [if_pos h]; simp
      · unfold cppInsert; rw [if_neg h]; simp [ih]
  intro l
  induction l with
  | nil => simp [cppSort]
  | cons q rest ih => simp [cppSort, hins, ih]

/-- Head of `cppSort f l` on a nonempty input: it is an element of `l` that no
element of `l` strictly precedes, provided `f` is irreflexive and transitive. -/
theorem cppSort_head_spec {α : Type} (f : α → α → Bool)
    (hirr : ∀ a, f a a = false)
    (htrans : ∀ a b c, f a b = true → f b c = true → f a c = true) :
    ∀ (l : List α) (hd : α) (tl : List α), cppSort f l = hd :: tl →
      hd ∈ l ∧ ∀ a ∈ l, f a hd = false := by
  intro l
  induction l with
  | nil => intro hd tl hst; simp [cppSort] at hst
  | cons p rest ih =>
    intro hd tl hst
    simp only [cppSort] at hst
    match hrest : cppSort f rest with
    | [] =>
      rw [hrest] at hst
      simp only [cppInsert] at hst
      injection hst with h1 h2
      subst h1
      have hempty : ∀ a ∈ rest, False := by
        intro a ha
        have := (mem_cppSort f rest a).mpr ha
        rw [hrest] at this
        simp at this
      constructor
      · exact List.mem_cons_self _ _
      · intro a ha
        rcases List.mem_cons.mp ha with h3 | h4
        · subst h3; exact hirr a
        · exact absurd h4 (fun hh => hempty a hh)
    | q :: t2 =>
      rw [hrest] at hst
      have hq := ih q t2 hrest
      by_cases hpq : f p q = true
      · unfold cppInsert at hst
        rw [if_pos hpq] at hst
        injection hst with h1 h2
        subst h1
        refine ⟨List.mem_cons_self _ _, ?_⟩
        intro a ha
        rcases List.mem_cons.mp ha with h3 | h4
        · subst h3; exact hirr a
        · by_contra hcon
          have hap : f a p = true := by
            cases hfa : f a p
            · exact absurd hfa hcon
            · rfl
          have hthis : f a q = true := htrans a p q hap hpq
          rw [hq.2 a h4] at hthis
          exact absurd hthis (by simp)
      · unfold cppInsert at hst
        rw [if_neg hpq] at hst
        injection hst with h1 h2
        subst h1
        refine ⟨List.mem_cons_of_mem _ hq.1, ?_⟩
        intro a ha
        rcases List.mem_cons.mp ha with h3 | h4
        · subst h3
          cases hfa : f a q
          · rfl
          · exact absurd hfa hpq
        · exact hq.2 a h4

/-- Comparator of `std::less` on `Nat` (default `std::sort` order). -/
def natLt (a b : Nat) : Bool := decide (a < b)

theorem cppInsert_natLt_sorted (p : Nat) : ∀ (l : List Nat),
    List.Sorted (· ≤ ·) l → List.Sorted (· ≤ ·) (cppInsert natLt p l) := by
  intro l
  induction l with
  | nil => intro _; simp [cppInsert]
  | cons q rest ih =>
    intro hs
    rw [List.sorted_cons] at hs
    by_cases h : natLt p q = true
    · have hpq : p < q := by simpa [natLt] using h
      unfold cppInsert
      rw [if_pos h, List.sorted_cons]
      refine ⟨?_, ?_⟩
      · intro b hb
        rcases List.mem_cons.mp hb with h1 | h2
        · subst h1; exact le_of_lt hpq
        · exact le_trans (le_of_lt hpq) (hs.1 b h2)
      · rw [List.sorted_cons]
        exact hs
    · have hqp : q ≤ p := by
        have : ¬ p < q := by simpa [natLt] using h
        omega
      unfold cppInsert
      rw [if_neg h, List.sorted_cons]
      refine ⟨?_, ih hs.2⟩
      intro b hb
      rcases (mem_cppInsert natLt p rest b).mp hb with h1 | h2
      · subst h1; exact hqp
      · exact hs.1 b h2

theorem cppSort_natLt_sorted : ∀ (l : List Nat),
    List.Sorted (· ≤ ·) (cppSort natLt l) := by
  intro l
  induction l with
  | nil => simp [cppSort]
  | cons p rest ih => exact cppInsert_natLt_sorted p _ ih

/-- Adjacent-duplicate removal, modelling
`erase(unique(begin, end), end)` on an already sorted vector (line 99). -/
def uniqueAdj : List Nat → List Nat
  | [] => []
  | [a] => [a]
  | a :: b :: rest => if a = b then uniqueAdj (b :: rest) else a :: uniqueAdj (b :: rest)

theorem mem_uniqueAdj : ∀ (l : List Nat) (x : Nat), x ∈ uniqueAdj l ↔ x ∈ l := by
  intro l
  induction l with
  | nil => intro x; simp [uniqueAdj]
  | cons a rest ih =>
    intro x
    match rest with
    | [] => simp [uniqueAdj]
    | b :: rest2 =>
      by_cases hab : a = b
      · unfold uniqueAdj
        rw [if_pos hab, ih x]
        subst hab
        simp only [List.mem_cons]
        try tauto
      · unfold uniqueAdj
        rw [if_neg hab]
        simp only [List.mem_cons, ih x]
        try simp only [List.mem_cons]
        try tauto

theorem uniqueAdj_sorted_lt : ∀ (l : List Nat),
    List.Sorted (· ≤ ·) l → List.Sorted (· < ·) (uniqueAdj l) := by
  intro l
  induction l with
  | nil => intro _; simp [uniqueAdj]
  | cons a rest ih =>
    intro hs
    rw [List.sorted_cons] at hs
    match rest with
    | [] => simp [uniqueAdj]
    | b :: rest2 =>
      by_cases hab : a = b
      · unfold uniqueAdj
        rw [if_pos hab]
        exact ih hs.2
      · unfold uniqueAdj
        rw [if_neg hab, List.sorted_cons]
        refine ⟨?_, ih hs.2⟩
        intro x hx
        rw [mem_uniqueAdj] at hx
        have hax : a ≤ b := hs.1 b (List.mem_cons_self _ _)
        have hltb : a < b := lt_of_le_of_ne hax hab
        rcases List.mem_cons.mp hx with h1 | h2
        · subst h1; exact hltb
        · have hbx : b ≤ x := by
            have h3 := hs.2
            rw [List.sorted_cons] at h3
            exact h3.1 x h2
          omega

/-- Spec-side "sorted ascending with duplicates removed" (§4.C step 2):
insert into a strictly increasing list, dropping duplicates. -/
def insertAscNodup (x : Nat) : List Nat → List Nat
  | [] => [x]
  | y :: t => if x < y then x :: y :: t else if x = y then y :: t else y :: insertAscNodup x t

/-- Spec-side canonical sorted duplicate-free arrangement of a list. -/
def sortedNodup (l : List Nat) : List Nat := l.foldr insertAscNodup []

theorem mem_insertAscNodup (x : Nat) : ∀ (l : List Nat) (a : Nat),
    a ∈ insertAscNodup x l ↔ a = x ∨ a ∈ l := by
  intro l
  induction l with
  | nil => intro a; simp [insertAscNodup]
  | cons y t ih =>
    intro a
    by_cases h1 : x < y
    · unfold insertAscNodup
      rw [if_pos h1]
      simp only [List.mem_cons]
      try tauto
    · by_cases h2 : x = y
      · unfold insertAscNodup
        rw [if_neg h1, if_pos h2]
        subst h2
        simp only [List.mem_cons]
        try tauto
      · unfold insertAscNodup
        rw [if_neg h1, if_neg h2]
        simp only [List.mem_cons, ih a]
        try tauto

theorem insertAscNodup_sorted (x : Nat) : ∀ (l : List Nat),
    List.Sorted (· < ·) l → List.Sorted (· < ·) (insertAscNodup x l) := by
  intro l
  induction l with
  | nil => intro _; simp [insertAscNodup]
  | cons y t ih =>
    intro hs
    rw [List.sorted_cons] at hs
    by_cases h1 : x < y
    · unfold insertAscNodup
      rw [if_pos h1, List.sorted_cons]
      refine ⟨?_, ?_⟩
      · intro b hb
        rcases List.mem_cons.mp hb with hh | hh
        · subst hh; exact h1
        · exact lt_trans h1 (hs.1 b hh)
      · rw [List.sorted_cons]; exact hs
    · by_cases h2 : x = y
      · unfold insertAscNodup
        rw [if_neg h1, if_pos h2, List.sorted_cons]
        exact hs
      · unfold insertAscNodup
        rw [if_neg h1, if_neg h2, List.sorted_cons]
        refine ⟨?_, ih hs.2⟩
        intro b hb
        rcases (mem_insertAscNodup x t b).mp hb with hh | hh
        · subst hh; omega
        · exact hs.1 b hh

theorem sortedNodup_sorted : ∀ (l : List Nat), List.Sorted (· < ·) (sortedNodup l) := by
  intro l
  induction l with
  | nil => simp [sortedNodup]
  | cons x t ih => exact insertAscNodup_sorted x _ ih

theorem mem_sortedNodup : ∀ (l : List Nat) (a : Nat), a ∈ sortedNodup l ↔ a ∈ l := by
  intro l
  induction l with
  | nil => intro a; simp [sortedNodup]
  | cons x t ih =>
    intro a
    simp only [sortedNodup, List.foldr_cons]
    rw [mem_insertAscNodup]
    simp only [sortedNodup] at ih
    simp [ih]

/-- Strictly increasing lists with the same members are equal. -/
theorem sorted_lt_eq_of_mem_iff : ∀ (l₁ l₂ : List Nat),
    List.Sorted (· < ·) l₁ → List.Sorted (· < ·) l₂ →
    (∀ x, x ∈ l₁ ↔ x ∈ l₂) → l₁ = l₂ := by
  intro l₁
  induction l₁ with
  | nil =>
    intro l₂ _ _ hmem
    match l₂ with
    | [] => rfl
    | b :: t₂ => exact absurd ((hmem b).mpr (List.mem_cons_self _ _)) (by simp)
  | cons a t₁ ih =>
    intro l₂ hs₁ hs₂ hmem
    match l₂ with
    | [] => exact absurd ((hmem a).mp (List.mem_cons_self _ _)) (by simp)
    | b :: t₂ =>
      rw [List.sorted_cons] at hs₁ hs₂
      have hab : a = b := by
        rcases List.mem_cons.mp ((hmem a).mp (List.mem_cons_self _ _)) with h1 | h2
        · exact h1
        · rcases List.mem_cons.mp ((hmem b).mpr (List.mem_cons_self _ _)) with h3 | h4
          · exact h3.symm
          · have hb := hs₁.1 b h4
            have ha := hs₂.1 a h2
            omega
      subst hab
      have htails : ∀ x, x ∈ t₁ ↔ x ∈ t₂ := by
        intro x
        constructor
        · intro hx
          have hlt := hs₁.1 x hx
          rcases List.mem_cons.mp ((hmem x).mp (List.mem_cons_of_mem _ hx)) with h1 | h2
          · omega
          · exact h2
        · intro hx
          have hlt := hs₂.1 x hx
          rcases List.mem_cons.mp ((hmem x).mpr (List.mem_cons_of_mem _ hx)) with h1 | h2
          · omega
          · exact h2
      rw [ih t₂ hs₁.2 hs₂.2 htails]

/-- Sorting with `std::sort` + `std::unique`-erase equals the spec-side
canonical sorted duplicate-free arrangement. -/
theorem uniqueAdj_cppSort_eq_sortedNodup (l : List Nat) :
    uniqueAdj (cppSort natLt l) = sortedNodup l := by
  apply sorted_lt_eq_of_mem_iff
  · exact uniqueAdj_sorted_lt _ (cppSort_natLt_sorted l)
  · exact sortedNodup_sorted l
  · intro x
    rw [mem_uniqueAdj, mem_cppSort, mem_sortedNodup]

/-- Rolling hash of one sample window (lines 112-115):
`simpleHash = simpleHash * 31 + byte` in `uint32_t`, initial value 0. -/
def rollHash (chunk : List Nat) : Nat :=
  chunk.foldl (fun h b => (h * 31 + b) % u32Mod) 0

/-- Sample offsets of `generateFileSignature` (lines 89-99): `{0}`, then
`size * i / (samplePoints + 1)` for `i = 1..samplePoints`, then
`size - min sampleSize size`; the vector is sorted and adjacent duplicates are
erased.  `size * i` and `samplePoints + 1` are computed in 64-bit unsigned
arithmetic, hence the `% usizeMod`. -/
def keyPositions (samplePoints sampleSize size : Nat) : List Nat :=
  uniqueAdj (cppSort natLt
    (0 :: ((List.range' 1 samplePoints).map
        (fun i => size * i % usizeMod / ((samplePoints + 1) % usizeMod))
      ++ [size - min sampleSize size])))

/-- Non-SMALL branch of `generateFileSignature` (lines 84-120): the signature
is `"{N}|"` followed by `"{hash}|"` for every sample offset, where the window
at offset `pos` has `min sampleSize (size - pos)` bytes. -/
def signatureHashPath (samplePoints sampleSize : Nat) (file : List Nat) : String :=
  (keyPositions samplePoints sampleSize file.length).foldl
    (fun sig pos =>
      sig ++ toString (rollHash ((file.drop pos).take (min sampleSize (file.length - pos)))) ++ "|")
    (toString file.length ++ "|")

/-- Embedding of `generateFileSignature` (lines 76-121).  The SMALL test
`size <= sampleSize * 2` computes `sampleSize * 2` in `size_t`. -/
def generateFileSignature (samplePoints sampleSize : Nat) (file : List Nat) : String :=
  if file.length ≤ sampleSize * 2 % usizeMod then toString file.length ++ "|SMALL"
  else signatureHashPath samplePoints sampleSize file

/-- Modelled from the spec (§4.C steps 2-4): sample offsets are the set
`{0} ∪ { N*i/(samplePoints+1) : i in 1..samplePoints } ∪ {N - min sampleSize N}`
arranged sorted ascending with duplicates removed, with exact arithmetic. -/
def specOffsets (samplePoints sampleSize N : Nat) : List Nat :=
  sortedNodup
    (0 :: ((List.range' 1 samplePoints).map (fun i => N * i / (samplePoints + 1))
      ++ [N - min sampleSize N]))

/-- Modelled from the spec (§4.C step 4): emit `"{N}|{h0}|{h1}|...|"` with one
rolling hash per sample offset over `min sampleSize (N - p)` bytes. -/
def specSignature (samplePoints sampleSize : Nat) (file : List Nat) : String :=
  (specOffsets samplePoints sampleSize file.length).foldl
    (fun sig pos =>
      sig ++ toString (rollHash ((file.drop pos).take (min sampleSize (file.length - pos)))) ++ "|")
    (toString file.length ++ "|")

theorem keyPositions_eq_specOffsets (samplePoints sampleSize N : Nat)
    (hN : 0 < N) (hnoov : N * samplePoints < usizeMod) :
    keyPositions samplePoints sampleSize N = specOffsets samplePoints sampleSize N := by
  unfold keyPositions specOffsets
  rw [uniqueAdj_cppSort_eq_sortedNodup]
  have hmap : (List.range' 1 samplePoints).map
      (fun i => N * i % usizeMod / ((samplePoints + 1) % usizeMod))
      = (List.range' 1 samplePoints).map (fun i => N * i / (samplePoints + 1)) := by
    apply List.map_congr_left
    intro i hi
    have hirange : 1 ≤ i ∧ i < 1 + samplePoints := by
      have := List.mem_range'_1.mp hi
      omega
    have hile : i ≤ samplePoints := by omega
    have hmul : N * i ≤ N * samplePoints := Nat.mul_le_mul_left N hile
    have hmod1 : N * i % usizeMod = N * i := Nat.mod_eq_of_lt (by omega)
    rw [hmod1]
    have hplt : samplePoints < usizeMod := by
      have : samplePoints ≤ N * samplePoints := Nat.le_mul_of_pos_left _ hN
      omega
    by_cases hp1 : samplePoints + 1 < usizeMod
    · rw [Nat.mod_eq_of_lt hp1]
    · have hp1eq : samplePoints + 1 = usizeMod := by omega
      have hNi : N * i < usizeMod := by omega
      rw [hp1eq, Nat.mod_self, Nat.div_zero, Nat.div_eq_of_lt hNi]
  rw [hmap]

/-- Claim C7 (amended): provided `2 * sampleSize` does not overflow `size_t`,
a file of size at most `2 * sampleSize` gets the literal fingerprint
`"{N}|SMALL"` (which depends only on the size, not on any file byte), and a
file of size exactly `2 * sampleSize + 1` instead takes the hashing path. -/
theorem smallPolicy_boundary (samplePoints sampleSize : Nat) (file : List Nat)
    (hW : sampleSize * 2 < usizeMod) :
    (file.length ≤ 2 * sampleSize →
      generateFileSignature samplePoints sampleSize file = toString file.length ++ "|SMALL") ∧
    (file.length = 2 * sampleSize + 1 →
      generateFileSignature samplePoints sampleSize file
        = signatureHashPath samplePoints sampleSize file) := by
  constructor
  · intro hle
    unfold generateFileSignature
    rw [if_pos]
    rw [Nat.mod_eq_of_lt hW]
    omega
  · intro heq
    unfold generateFileSignature
    rw [if_neg]
    rw [Nat.mod_eq_of_lt hW]
    omega

/-- Claim C7, counterexample: with `sampleSize = 2^63` the `size_t` product
`sampleSize * 2` wraps to 0, so the 1-byte file `[7]` of size
`1 ≤ 2 * sampleSize` does NOT get the `"{N}|SMALL"` fingerprint the claim
promises; it is hashed instead (the result is `"1|7|"`). -/
theorem smallPolicy_overflow_cex :
    generateFileSignature 4 9223372036854775808 [7] ≠ "1|SMALL" := by
  decide

theorem smallPolicy_boundary_witness :
    generateFileSignature 4 4096 [7, 7] = "2|SMALL" ∧
    generateFileSignature 1 1 [1, 2, 3] = signatureHashPath 1 1 [1, 2, 3] := by
  constructor
  · have h := (smallPolicy_boundary 4 4096 [7, 7] (by decide)).1 (by decide)
    rw [h]
    decide
  · exact (smallPolicy_boundary 1 1 [1, 2, 3] (by decide)).2 (by decide)

/-- Claim C8 (amended): for a file of size `N > 2 * sampleSize`, provided
`N * samplePoints` does not overflow 64-bit `size_t` arithmetic, the
fingerprint is exactly the spec formula: `"{N}|"` followed by one rolling hash
per sample offset (trailing separator included), the offsets being
`{0} ∪ {N*i/(samplePoints+1) : i = 1..samplePoints} ∪ {N - min sampleSize N}`
sorted ascending with duplicates removed, each hash folding
`h := (h*31 + byte) mod 2^32` from 0 over `min sampleSize (N - p)` bytes. -/
theorem generateFileSignature_eq_spec (samplePoints sampleSize : Nat) (file : List Nat)
    (hbig : 2 * sampleSize < file.length)
    (hnoov : file.length * samplePoints < usizeMod) :
    generateFileSignature samplePoints sampleSize file
      = specSignature samplePoints sampleSize file := by
  have hN : 0 < file.length := by omega
  unfold generateFileSignature
  rw [if_neg (by
    have := Nat.mod_le (sampleSize * 2) usizeMod
    omega)]
  unfold signatureHashPath specSignature
  rw [keyPositions_eq_specOffsets samplePoints sampleSize file.length hN hnoov]

theorem generateFileSignature_eq_spec_witness :
    generateFileSignature 1 1 [1, 2, 3] = specSignature 1 1 [1, 2, 3] :=
  generateFileSignature_eq_spec 1 1 [1, 2, 3] (by decide) (by decide)

/-- Claim C2: `areFilesIdentical` returns true iff the files have identical
length and identical bytes at every offset; in particular it is true on two
zero-length files and false whenever the lengths differ. -/
theorem areFilesIdentical_correct (file1 file2 : List Nat) :
    (areFilesIdentical file1 file2 = true ↔
      (file1.length = file2.length ∧
        ∀ k, k < file1.length → file1.getD k 0 = file2.getD k 0)) ∧
    (file1.length ≠ file2.length → areFilesIdentical file1 file2 = false) ∧
    areFilesIdentical [] [] = true := by
  have hiff : areFilesIdentical file1 file2 = true ↔
      (file1.length = file2.length ∧
        ∀ k, k < file1.length → file1.getD k 0 = file2.getD k 0) := by
    rw [areFilesIdentical_iff]
    constructor
    · intro h
      subst h
      exact ⟨rfl, fun k _ => rfl⟩
    · intro ⟨hlen, hbytes⟩
      apply List.ext_getElem hlen
      intro i h₁ h₂
      have := hbytes i h₁
      rwa [List.getD_eq_getElem file1 0 h₁, List.getD_eq_getElem file2 0 h₂] at this
  refine ⟨hiff, ?_, by decide⟩
  intro hne
  cases h : areFilesIdentical file1 file2
  · rfl
  · exact absurd (hiff.mp h).1 hne

theorem areFilesIdentical_correct_witness :
    areFilesIdentical [1] [1, 2] = false :=
  (areFilesIdentical_correct [1] [1, 2]).2.1 (by decide)

/-- Claim C1: every group emitted by `findExactDuplicates` has at least two
members, all its members are pairwise byte-identical, the group preserves the
candidates' encounter order, and the groups appear in anchor encounter order
(the list of the groups' anchors is a subsequence of the candidate list). -/
theorem findExactDuplicates_groups_correct (candidateGroup : List (List Nat)) :
    (∀ G ∈ findExactDuplicates candidateGroup,
      2 ≤ G.length ∧ (∀ a ∈ G, ∀ b ∈ G, a = b) ∧ G.Sublist candidateGroup) ∧
    ((findExactDuplicates candidateGroup).filterMap List.head?).Sublist candidateGroup := by
  have hmap : (candidateGroup.map (fun f => (f, false))).map Prod.fst = candidateGroup := by
    simp [Function.comp_def]
  constructor
  · intro G hG
    have h := scanFrom_groups candidateGroup.length _ G hG
    refine ⟨h.1, h.2.1, ?_⟩
    have hsub := h.2.2
    rwa [hmap] at hsub
  · have hsub := scanFrom_heads candidateGroup.length (candidateGroup.map (fun f => (f, false)))
    rwa [hmap] at hsub

theorem findExactDuplicates_groups_witness :
    2 ≤ ([[1], [1]] : List (List Nat)).length ∧
    (∀ a ∈ ([[1], [1]] : List (List Nat)), ∀ b ∈ ([[1], [1]] : List (List Nat)), a = b) ∧
    ([[1], [1]] : List (List Nat)).Sublist [[1], [2], [1]] :=
  (findExactDuplicates_groups_correct [[1], [2], [1]]).1 [[1], [1]] (by decide)

/-- A member of a duplicate group as the retention logic sees it: its path,
its modification time (`fs::last_write_time`, modelled as a Nat), and the
length of its filename string (`filename().string().length()`). -/
structure FileRef where
  path : String
  mtime : Nat
  nameLen : Nat
deriving DecidableEq

/-- Default member used by total indexing functions. -/
def dummyRef : FileRef := ⟨"", 0, 0⟩

/-- The `times` vector built by the `newest` / `oldest` strategies (lines
281-284, 290-293): pairs `(last_write_time(group[i]), i + 1)` in member
order; the second component is the 1-based member index. -/
def timesFrom (k : Nat) : List FileRef → List (Nat × Nat)
  | [] => []
  | m :: rest => (m.mtime, k) :: timesFrom (k + 1) rest

/-- Comparator `std::greater<>` on `pair<file_time_type, size_t>`:
lexicographic strictly-greater. -/
def pairGt (a b : Nat × Nat) : Bool :=
  if b.1 < a.1 then true else if a.1 = b.1 then decide (b.2 < a.2) else false

/-- Comparator `std::less` (default `std::sort` order) on
`pair<file_time_type, size_t>`: lexicographic strictly-less. -/
def pairLt (a b : Nat × Nat) : Bool :=
  if a.1 < b.1 then true else if a.1 = b.1 then decide (a.2 < b.2) else false

/-- The `longest-name` scan (lines 297-308): strict `>` against the running
maximum, starting from `maxLength = 0`, `keepIndex = 1`; `i` is the 1-based
index of the current member. -/
def longestFrom : Nat → Nat → Nat → List FileRef → Nat
  | _, _, keepIndex, [] => keepIndex
  | i, maxLength, keepIndex, m :: rest =>
    if maxLength < m.nameLen then longestFrom (i + 1) m.nameLen i rest
    else longestFrom (i + 1) maxLength keepIndex rest

/-- The `shortest-name` scan (lines 310-321): strict `<` against the running
minimum, starting from `minLength = numeric_limits<size_t>::max()`,
`keepIndex = 1`. -/
def shortestFrom : Nat → Nat → Nat → List FileRef → Nat
  | _, _, keepIndex, [] => keepIndex
  | i, minLength, keepIndex, m :: rest =>
    if m.nameLen < minLength then shortestFrom (i + 1) m.nameLen i rest
    else shortestFrom (i + 1) minLength keepIndex rest

/-- Embedding of `autoSelectKeepFiles` (lines 276-325).  `newest` / `oldest`
sort the `(mtime, index)` pairs with `std::greater<>` / the default order and
keep `times[0].second`; on an empty group `times[0]` would be out of bounds,
which the model renders as the empty set.  An unrecognized strategy leaves
`keepSet` empty. -/
def autoSelectKeepFiles (group : List FileRef) (strategy : String) : Finset Nat :=
  if strategy = "newest" then
    match cppSort pairGt (timesFrom 1 group) with
    | [] => ∅
    | p :: _ => {p.2}
  else if strategy = "oldest" then
    match cppSort pairLt (timesFrom 1 group) with
    | [] => ∅
    | p :: _ => {p.2}
  else if strategy = "longest-name" then {longestFrom 1 0 1 group}
  else if strategy = "shortest-name" then {shortestFrom 1 (usizeMod - 1) 1 group}
  else ∅

/-- Strategy selection menu of `letUserModifyRetention` (lines 378-386 and
430-438): `"1"` to `"4"` select a strategy, anything else falls back to
`newest`. -/
def menuStrategy (strategyInput : String) : String :=
  if strategyInput = "1" then "newest"
  else if strategyInput = "2" then "oldest"
  else if strategyInput = "3" then "longest-name"
  else if strategyInput = "4" then "shortest-name"
  else "newest"

/-- ASCII lowercase conversion, modelling `::tolower` as applied by
`std::transform` over the command line (line 358). -/
def asciiToLower (c : Char) : Char :=
  if 'A' ≤ c ∧ c ≤ 'Z' then Char.ofNat (c.toNat + 32) else c

/-- Lowercase an input line. -/
def toLowerL (s : List Char) : List Char := s.map asciiToLower

/-- Prefix test on character lists, modelling `command.find("view") == 0`. -/
def startsWithL : List Char → List Char → Bool
  | [], _ => true
  | _ :: _, [] => false
  | p :: ps, c :: cs => p = c && startsWithL ps cs

/-- Accumulate the numeric value of a digit string. -/
def digitsVal (cs : List Char) : Nat :=
  cs.foldl (fun n c => n * 10 + (c.toNat - 48)) 0

/-- Model of `std::stoi`: skip leading blanks, take an optional sign and a
nonempty run of digits (trailing junk ignored); no digits or a value outside
`int` range throws, modelled as `none`. -/
def stoiOpt (s : String) : Option Int :=
  let cs := (s.toList.dropWhile (fun c => c = ' ' ∨ c = '\t'))
  let signed : Bool × List Char :=
    match cs with
    | '-' :: rest => (true, rest)
    | '+' :: rest => (false, rest)
    | _ => (false, cs)
  let ds := signed.2.takeWhile Char.isDigit
  if ds.isEmpty then none
  else
    let m := digitsVal ds
    if signed.1 then (if m ≤ 2147483648 then some (-(m : Int)) else none)
    else (if m ≤ 2147483647 then some (m : Int) else none)

/-- Member-selection parser of the group-edit branch (lines 469-487): every
character must be a digit `1..9` whose value does not exceed the group size;
the selected values are collected as a set; any invalid character aborts. -/
def parseSelection (groupSize : Nat) : List Char → Option (Finset Nat)
  | [] => some ∅
  | c :: cs =>
    if c < '1' ∨ '9' < c then none
    else if groupSize < c.toNat - 48 then none
    else (parseSelection groupSize cs).map (insert (c.toNat - 48))

/-- Read one line from the remaining input (a `getline` at end of input
yields the empty string). -/
def takeLine : List String → String × List String
  | [] => ("", [])
  | s :: rest => (s, rest)

/-- One iteration of the `letUserModifyRetention` command loop (lines
345-504).  Returns the updated keep sets, the remaining input, and whether
the loop exits (`done`).  Commands are matched on the lowercased full line in
the source's order: `done`, `list`, `all`, lines starting with `view`,
`auto`, and otherwise a group number; mutation only happens in the `all`,
`auto` and valid group-edit branches. -/
def retentionStep (groups : List (List FileRef)) (keep : List (Finset Nat))
    (line : String) (rest : List String) : List (Finset Nat) × List String × Bool :=
  if line = "" then (keep, rest, false)
  else
    let command := toLowerL line.toList
    if command = "done".toList then (keep, rest, true)
    else if command = "list".toList then (keep, rest, false)
    else if command = "all".toList then
      let s := takeLine rest
      (groups.map (fun g => autoSelectKeepFiles g (menuStrategy s.1)), s.2, false)
    else if startsWithL "view".toList command then (keep, rest, false)
    else if command = "auto".toList then
      let g := takeLine rest
      match stoiOpt g.1 with
      | none => (keep, g.2, false)
      | some n =>
        if n < 1 ∨ (groups.length : Int) < n then (keep, g.2, false)
        else
          let s := takeLine g.2
          (keep.set (n - 1).toNat
            (autoSelectKeepFiles (groups.getD (n - 1).toNat []) (menuStrategy s.1)), s.2, false)
    else
      match stoiOpt line with
      | none => (keep, rest, false)
      | some n =>
        if n < 1 ∨ (groups.length : Int) < n then (keep, rest, false)
        else
          let s := takeLine rest
          match parseSelection (groups.getD (n - 1).toNat []).length s.1.toList with
          | none => (keep, s.2, false)
          | some sel =>
            if sel = ∅ then (keep, s.2, false)
            else (keep.set (n - 1).toNat sel, s.2, false)

/-- The `letUserModifyRetention` loop: iterate `retentionStep` until `done`
or the input is exhausted.  The fuel bounds the number of iterations (each
iteration consumes at least one input line). -/
def runRetention (groups : List (List FileRef)) :
    Nat → List (Finset Nat) → List String → List (Finset Nat)
  | 0, keep, _ => keep
  | _ + 1, keep, [] => keep
  | fuel + 1, keep, line :: rest =>
    let r := retentionStep groups keep line rest
    if r.2.2 then r.1 else runRetention groups fuel r.1 r.2.1

/-- Initial keep sets of `letUserModifyRetention` (lines 329-334): every
group keeps member 1. -/
def initKeep (groups : List (List FileRef)) : List (Finset Nat) :=
  groups.map (fun _ => ({1} : Finset Nat))

/-- Embedding of `letUserModifyRetention` (lines 328-507) applied to an
operator input script. -/
def letUserModifyRetention (groups : List (List FileRef)) (script : List String) :
    List (Finset Nat) :=
  runRetention groups script.length (initKeep groups) script

theorem pairGt_iff (a b : Nat × Nat) :
    pairGt a b = true ↔ (b.1 < a.1 ∨ (a.1 = b.1 ∧ b.2 < a.2)) := by
  unfold pairGt
  split_ifs with h1 h2
  · simp only [true_iff]
    omega
  · simp only [decide_eq_true_eq]
    omega
  · simp only [Bool.false_eq_true, false_iff]
    omega

theorem pairLt_iff (a b : Nat × Nat) :
    pairLt a b = true ↔ (a.1 < b.1 ∨ (a.1 = b.1 ∧ a.2 < b.2)) := by
  unfold pairLt
  split_ifs with h1 h2
  · simp only [true_iff]
    omega
  · simp only [decide_eq_true_eq]
    omega
  · simp only [Bool.false_eq_true, false_iff]
    omega

theorem pairGt_irrefl : ∀ a : Nat × Nat, pairGt a a = false := by
  intro a
  cases h : pairGt a a
  · rfl
  · rw [pairGt_iff] at h
    omega

theorem pairLt_irrefl : ∀ a : Nat × Nat, pairLt a a = false := by
  intro a
  cases h : pairLt a a
  · rfl
  · rw [pairLt_iff] at h
    omega

theorem pairGt_trans : ∀ a b c : Nat × Nat,
    pairGt a b = true → pairGt b c = true → pairGt a c = true := by
  intro a b c h1 h2
  rw [pairGt_iff] at h1 h2 ⊢
  omega

theorem pairLt_trans : ∀ a b c : Nat × Nat,
    pairLt a b = true → pairLt b c = true → pairLt a c = true := by
  intro a b c h1 h2
  rw [pairLt_iff] at h1 h2 ⊢
  omega

theorem timesFrom_length : ∀ (g : List FileRef) (k : Nat),
    (timesFrom k g).length = g.length := by
  intro g
  induction g with
  | nil => intro k; simp [timesFrom]
  | cons m rest ih => intro k; simp [timesFrom, ih]

theorem timesFrom_mem : ∀ (g : List FileRef) (k : Nat) (p : Nat × Nat),
    p ∈ timesFrom k g ↔ ∃ j, j < g.length ∧ p = ((g.getD j dummyRef).mtime, k + j) := by
  intro g
  induction g with
  | nil =>
    intro k p
    simp [timesFrom]
  | cons m rest ih =>
    intro k p
    simp only [timesFrom, List.mem_cons, ih (k + 1)]
    constructor
    · intro h
      rcases h with h1 | ⟨j, hj, hpe⟩
      · exact ⟨0, by simp, by simpa using h1⟩
      · exact ⟨j + 1, by simpa using hj, by simpa [Nat.add_assoc, Nat.add_comm 1 j] using hpe⟩
    · intro ⟨j, hj, hpe⟩
      match j with
      | 0 =>
        left
        simpa using hpe
      | j + 1 =>
        right
        refine ⟨j, by simpa using hj, ?_⟩
        simpa [Nat.add_assoc, Nat.add_comm 1 j] using hpe

/-- The mtime of the 1-based member `i` of a group. -/
def mtimeAt (group : List FileRef) (i : Nat) : Nat :=
  (group.getD (i - 1) dummyRef).mtime

/-- The filename length of the 1-based member `i` of a group. -/
def nameLenAt (group : List FileRef) (i : Nat) : Nat :=
  (group.getD (i - 1) dummyRef).nameLen

theorem autoSelect_newest_spec (group : List FileRef) (hne : group ≠ []) :
    ∃ k, autoSelectKeepFiles group "newest" = {k} ∧ 1 ≤ k ∧ k ≤ group.length ∧
      (∀ j, 1 ≤ j → j ≤ group.length → mtimeAt group j ≤ mtimeAt group k) ∧
      (∀ j, 1 ≤ j → j ≤ group.length → mtimeAt group j = mtimeAt group k → j ≤ k) := by
  have hpos : 0 < (cppSort pairGt (timesFrom 1 group)).length := by
    rw [cppSort_length, timesFrom_length]
    exact List.length_pos.mpr hne
  match hsort : cppSort pairGt (timesFrom 1 group) with
  | [] => rw [hsort] at hpos; simp at hpos
  | hd :: tl =>
    have hspec := cppSort_head_spec pairGt pairGt_irrefl pairGt_trans _ hd tl hsort
    obtain ⟨j, hj, hpe⟩ := (timesFrom_mem group 1 hd).mp hspec.1
    have hd1 : hd.1 = (group.getD j dummyRef).mtime := by rw [hpe]
    have hd2 : hd.2 = 1 + j := by rw [hpe]
    have hsel : autoSelectKeepFiles group "newest" = {hd.2} := by
      unfold autoSelectKeepFiles
      rw [if_pos rfl, hsort]
    have hkey : ∀ j2, 1 ≤ j2 → j2 ≤ group.length →
        mtimeAt group j2 ≤ hd.1 ∧ (mtimeAt group j2 = hd.1 → j2 ≤ hd.2) := by
      intro j2 h1 h2
      have hmem : (mtimeAt group j2, 1 + (j2 - 1)) ∈ timesFrom 1 group :=
        (timesFrom_mem group 1 _).mpr ⟨j2 - 1, by omega, rfl⟩
      have hfalse := hspec.2 _ hmem
      have hnot : ¬ (pairGt (mtimeAt group j2, 1 + (j2 - 1)) hd = true) := by
        rw [hfalse]
        simp
      rw [pairGt_iff] at hnot
      push_neg at hnot
      constructor
      · exact hnot.1
      · intro heq
        have := hnot.2 heq
        omega
    refine ⟨hd.2, hsel, by omega, by omega, ?_, ?_⟩
    · intro j2 h1 h2
      have hmk : mtimeAt group hd.2 = hd.1 := by
        unfold mtimeAt
        rw [hd1, hd2]
        have hji : 1 + j - 1 = j := by omega
        rw [hji]
      rw [hmk]
      exact (hkey j2 h1 h2).1
    · intro j2 h1 h2 heq
      have hmk : mtimeAt group hd.2 = hd.1 := by
        unfold mtimeAt
        rw [hd1, hd2]
        have hji : 1 + j - 1 = j := by omega
        rw [hji]
      rw [hmk] at heq
      exact (hkey j2 h1 h2).2 heq

theorem autoSelect_oldest_spec (group : List FileRef) (hne : group ≠ []) :
    ∃ k, autoSelectKeepFiles group "oldest" = {k} ∧ 1 ≤ k ∧ k ≤ group.length ∧
      (∀ j, 1 ≤ j → j ≤ group.length → mtimeAt group k ≤ mtimeAt group j) ∧
      (∀ j, 1 ≤ j → j ≤ group.length → mtimeAt group j = mtimeAt group k → k ≤ j) := by
  have hpos : 0 < (cppSort pairLt (timesFrom 1 group)).length := by
    rw [cppSort_length, timesFrom_length]
    exact List.length_pos.mpr hne
  match hsort : cppSort pairLt (timesFrom 1 group) with
  | [] => rw [hsort] at hpos; simp at hpos
  | hd :: tl =>
    have hspec := cppSort_head_spec pairLt pairLt_irrefl pairLt_trans _ hd tl hsort
    obtain ⟨j, hj, hpe⟩ := (timesFrom_mem group 1 hd).mp hspec.1
    have hd1 : hd.1 = (group.getD j dummyRef).mtime := by rw [hpe]
    have hd2 : hd.2 = 1 + j := by rw [hpe]
    have hsel : autoSelectKeepFiles group "oldest" = {hd.2} := by
      unfold autoSelectKeepFiles
      rw [if_neg (by decide), if_pos rfl, hsort]
    have hkey : ∀ j2, 1 ≤ j2 → j2 ≤ group.length →
        hd.1 ≤ mtimeAt group j2 ∧ (mtimeAt group j2 = hd.1 → hd.2 ≤ 1 + (j2 - 1)) := by
      intro j2 h1 h2
      have hmem : (mtimeAt group j2, 1 + (j2 - 1)) ∈ timesFrom 1 group :=
        (timesFrom_mem group 1 _).mpr ⟨j2 - 1, by omega, rfl⟩
      have hfalse := hspec.2 _ hmem
      have hnot : ¬ (pairLt (mtimeAt group j2, 1 + (j2 - 1)) hd = true) := by
        rw [hfalse]
        simp
      rw [pairLt_iff] at hnot
      push_neg at hnot
      constructor
      · exact hnot.1
      · intro heq
        have := hnot.2 heq
        omega
    have hmk : mtimeAt group hd.2 = hd.1 := by
      unfold mtimeAt
      rw [hd1, hd2]
      have hji : 1 + j - 1 = j := by omega
      rw [hji]
    refine ⟨hd.2, hsel, by omega, by omega, ?_, ?_⟩
    · intro j2 h1 h2
      rw [hmk]
      exact (hkey j2 h1 h2).1
    · intro j2 h1 h2 heq
      rw [hmk] at heq
      have := (hkey j2 h1 h2).2 heq
      omega

theorem longestFrom_spec : ∀ (rest : List FileRef) (i maxLength keepIndex : Nat),
    (longestFrom i maxLength keepIndex rest = keepIndex ∧
      ∀ j, j < rest.length → (rest.getD j dummyRef).nameLen ≤ maxLength) ∨
    (∃ j, j < rest.length ∧ longestFrom i maxLength keepIndex rest = i + j ∧
      maxLength < (rest.getD j dummyRef).nameLen ∧
      (∀ j2, j2 < rest.length →
        (rest.getD j2 dummyRef).nameLen ≤ (rest.getD j dummyRef).nameLen) ∧
      (∀ j2, j2 < j →
        (rest.getD j2 dummyRef).nameLen < (rest.getD j dummyRef).nameLen)) := by
  intro rest
  induction rest with
  | nil =>
    intro i M K
    left
    exact ⟨rfl, by intro j hj; simp at hj⟩
  | cons m rest ih =>
    intro i M K
    by_cases hup : M < m.nameLen
    · rcases ih (i + 1) m.nameLen i with ⟨heq, hall⟩ | ⟨j, hj, heq, hgt, hall, hstrict⟩
      · right
        refine ⟨0, by simp, ?_, by simpa using hup, ?_, ?_⟩
        · unfold longestFrom
          rw [if_pos hup]
          simpa using heq
        · intro j2 hj2
          match j2 with
          | 0 => simp
          | j2 + 1 =>
            simp only [List.getD_cons_succ, List.getD_cons_zero]
            exact hall j2 (by simpa using hj2)
        · intro j2 hj2
          omega
      · right
        refine ⟨j + 1, by simpa using hj, ?_, ?_, ?_, ?_⟩
        · unfold longestFrom
          rw [if_pos hup]
          rw [heq]
          omega
        · simp only [List.getD_cons_succ]
          omega
        · intro j2 hj2
          match j2 with
          | 0 =>
            simp only [List.getD_cons_succ, List.getD_cons_zero]
            omega
          | j2 + 1 =>
            simp only [List.getD_cons_succ]
            exact hall j2 (by simpa using hj2)
        · intro j2 hj2
          match j2 with
          | 0 =>
            simp only [List.getD_cons_succ, List.getD_cons_zero]
            omega
          | j2 + 1 =>
            simp only [List.getD_cons_succ]
            exact hstrict j2 (by omega)
    · rcases ih (i + 1) M K with ⟨heq, hall⟩ | ⟨j, hj, heq, hgt, hall, hstrict⟩
      · left
        refine ⟨?_, ?_⟩
        · unfold longestFrom
          rw [if_neg hup]
          exact heq
        · intro j2 hj2
          match j2 with
          | 0 =>
            simp only [List.getD_cons_zero]
            omega
          | j2 + 1 =>
            simp only [List.getD_cons_succ]
            exact hall j2 (by simpa using hj2)
      · right
        refine ⟨j + 1, by simpa using hj, ?_, ?_, ?_, ?_⟩
        · unfold longestFrom
          rw [if_neg hup]
          rw [heq]
          omega
        · simp only [List.getD_cons_succ]
          omega
        · intro j2 hj2
          match j2 with
          | 0 =>
            simp only [List.getD_cons_succ, List.getD_cons_zero]
            omega
          | j2 + 1 =>
            simp only [List.getD_cons_succ]
            exact hall j2 (by simpa using hj2)
        · intro j2 hj2
          match j2 with
          | 0 =>
            simp only [List.getD_cons_succ, List.getD_cons_zero]
            omega
          | j2 + 1 =>
            simp only [List.getD_cons_succ]
            exact hstrict j2 (by omega)

theorem shortestFrom_spec : ∀ (rest : List FileRef) (i minLength keepIndex : Nat),
    (shortestFrom i minLength keepIndex rest = keepIndex ∧
      ∀ j, j < rest.length → minLength ≤ (rest.getD j dummyRef).nameLen) ∨
    (∃ j, j < rest.length ∧ shortestFrom i minLength keepIndex rest = i + j ∧
      (rest.getD j dummyRef).nameLen < minLength ∧
      (∀ j2, j2 < rest.length →
        (rest.getD j dummyRef).nameLen ≤ (rest.getD j2 dummyRef).nameLen) ∧
      (∀ j2, j2 < j →
        (rest.getD j dummyRef).nameLen < (rest.getD j2 dummyRef).nameLen)) := by
  intro rest
  induction rest with
  | nil =>
    intro i M K
    left
    exact ⟨rfl, by intro j hj; simp at hj⟩
  | cons m rest ih =>
    intro i M K
    by_cases hup : m.nameLen < M
    · rcases ih (i + 1) m.nameLen i with ⟨heq, hall⟩ | ⟨j, hj, heq, hgt, hall, hstrict⟩
      · right
        refine ⟨0, by simp, ?_, by simpa using hup, ?_, ?_⟩
        · unfold shortestFrom
          rw [if_pos hup]
          simpa using heq
        · intro j2 hj2
          match j2 with
          | 0 => simp
          | j2 + 1 =>
            simp only [List.getD_cons_succ, List.getD_cons_zero]
            exact hall j2 (by simpa using hj2)
        · intro j2 hj2
          omega
      · right
        refine ⟨j + 1, by simpa using hj, ?_, ?_, ?_, ?_⟩
        · unfold shortestFrom
          rw [if_pos hup]
          rw [heq]
          omega
        · simp only [List.getD_cons_succ]
          omega
        · intro j2 hj2
          match j2 with
          | 0 =>
            simp only [List.getD_cons_succ, List.getD_cons_zero]
            omega
          | j2 + 1 =>
            simp only [List.getD_cons_succ]
            exact hall j2 (by simpa using hj2)
        · intro j2 hj2
          match j2 with
          | 0 =>
            simp only [List.getD_cons_succ, List.getD_cons_zero]
            omega
          | j2 + 1 =>
            simp only [List.getD_cons_succ]
            exact hstrict j2 (by omega)
    · rcases ih (i + 1) M K with ⟨heq, hall⟩ | ⟨j, hj, heq, hgt, hall, hstrict⟩
      · left
        refine ⟨?_, ?_⟩
        · unfold shortestFrom
          rw [if_neg hup]
          exact heq
        · intro j2 hj2
          match j2 with
          | 0 =>
            simp only [List.getD_cons_zero]
            omega
          | j2 + 1 =>
            simp only [List.getD_cons_succ]
            exact hall j2 (by simpa using hj2)
      · right
        refine ⟨j + 1, by simpa using hj, ?_, ?_, ?_, ?_⟩
        · unfold shortestFrom
          rw [if_neg hup]
          rw [heq]
          omega
        · simp only [List.getD_cons_succ]
          omega
        · intro j2 hj2
          match j2 with
          | 0 =>
            simp only [List.getD_cons_succ, List.getD_cons_zero]
            omega
          | j2 + 1 =>
            simp only [List.getD_cons_succ]
            exact hall j2 (by simpa using hj2)
        · intro j2 hj2
          match j2 with
          | 0 =>
            simp only [List.getD_cons_succ, List.getD_cons_zero]
            omega
          | j2 + 1 =>
            simp only [List.getD_cons_succ]
            exact hstrict j2 (by omega)

theorem getD_mem_of_lt (l : List FileRef) (j : Nat) (h : j < l.length) :
    l.getD j dummyRef ∈ l := by
  rw [List.getD_eq_getElem l dummyRef h]
  exact List.getElem_mem h

theorem autoSelect_longest_eq (group : List FileRef) :
    autoSelectKeepFiles group "longest-name" = {longestFrom 1 0 1 group} := by
  unfold autoSelectKeepFiles
  rw [if_neg (by decide), if_neg (by decide), if_pos rfl]

theorem autoSelect_shortest_eq (group : List FileRef) :
    autoSelectKeepFiles group "shortest-name" = {shortestFrom 1 (usizeMod - 1) 1 group} := by
  unfold autoSelectKeepFiles
  rw [if_neg (by decide), if_neg (by decide), if_neg (by decide), if_pos rfl]

theorem autoSelect_longest_spec (group : List FileRef) (hne : group ≠ []) :
    ∃ k, autoSelectKeepFiles group "longest-name" = {k} ∧ 1 ≤ k ∧ k ≤ group.length ∧
      (∀ j, 1 ≤ j → j ≤ group.length → nameLenAt group j ≤ nameLenAt group k) ∧
      (∀ j, 1 ≤ j → j ≤ group.length → nameLenAt group j = nameLenAt group k → k ≤ j) := by
  have hpos : 0 < group.length := List.length_pos.mpr hne
  rcases longestFrom_spec group 1 0 1 with ⟨heq, hall⟩ | ⟨j, hj, heq, hgt, hall, hstrict⟩
  · refine ⟨1, by rw [autoSelect_longest_eq, heq], le_rfl, hpos, ?_, ?_⟩
    · intro j2 h1 h2
      have := hall (j2 - 1) (by omega)
      unfold nameLenAt
      omega
    · intro j2 h1 _ _
      exact h1
  · refine ⟨1 + j, by rw [autoSelect_longest_eq, heq], by omega, by omega, ?_, ?_⟩
    · intro j2 h1 h2
      have h3 := hall (j2 - 1) (by omega)
      unfold nameLenAt
      have hji : 1 + j - 1 = j := by omega
      rw [hji]
      exact h3
    · intro j2 h1 h2 hteq
      by_contra hcon
      push_neg at hcon
      have hlt : j2 - 1 < j := by omega
      have := hstrict (j2 - 1) hlt
      unfold nameLenAt at hteq
      have hji : 1 + j - 1 = j := by omega
      rw [hji] at hteq
      omega

theorem autoSelect_shortest_spec (group : List FileRef) (hne : group ≠ [])
    (hbound : ∀ mm ∈ group, mm.nameLen < usizeMod) :
    ∃ k, autoSelectKeepFiles group "shortest-name" = {k} ∧ 1 ≤ k ∧ k ≤ group.length ∧
      (∀ j, 1 ≤ j → j ≤ group.length → nameLenAt group k ≤ nameLenAt group j) ∧
      (∀ j, 1 ≤ j → j ≤ group.length → nameLenAt group j = nameLenAt group k → k ≤ j) := by
  have hpos : 0 < group.length := List.length_pos.mpr hne
  have hboundD : ∀ j, j < group.length → (group.getD j dummyRef).nameLen ≤ usizeMod - 1 := by
    intro j hj
    have := hbound _ (getD_mem_of_lt group j hj)
    omega
  rcases shortestFrom_spec group 1 (usizeMod - 1) 1 with ⟨heq, hall⟩ | ⟨j, hj, heq, hgt, hall, hstrict⟩
  · refine ⟨1, by rw [autoSelect_shortest_eq, heq], le_rfl, hpos, ?_, ?_⟩
    · intro j2 h1 h2
      have ha := hall (j2 - 1) (by omega)
      have hb := hall 0 hpos
      have hc := hboundD 0 hpos
      unfold nameLenAt
      simp only [Nat.sub_self]
      omega
    · intro j2 h1 _ _
      exact h1
  · refine ⟨1 + j, by rw [autoSelect_shortest_eq, heq], by omega, by omega, ?_, ?_⟩
    · intro j2 h1 h2
      have h3 := hall (j2 - 1) (by omega)
      unfold nameLenAt
      have hji : 1 + j - 1 = j := by omega
      rw [hji]
      exact h3
    · intro j2 h1 h2 hteq
      by_contra hcon
      push_neg at hcon
      have hlt : j2 - 1 < j := by omega
      have := hstrict (j2 - 1) hlt
      unfold nameLenAt at hteq
      have hji : 1 + j - 1 = j := by omega
      rw [hji] at hteq
      omega

/-- Claim C5 (corrected): tie-breaking of the four auto strategies.  For
`oldest`, `longest-name` and `shortest-name` a tie on the criterion is broken
in favour of the lowest 1-based index, but for `newest` the sort with
`std::greater<>` on `(mtime, index)` pairs puts the tied member with the
HIGHEST index first, so `newest` keeps the highest tied index.  (Filename
lengths are `size_t` values, hence below `2^64`.) -/
theorem autoSelect_tiebreak (group : List FileRef) (hne : group ≠ [])
    (hbound : ∀ mm ∈ group, mm.nameLen < usizeMod) :
    (∃ k, autoSelectKeepFiles group "newest" = {k} ∧ 1 ≤ k ∧ k ≤ group.length ∧
      (∀ j, 1 ≤ j → j ≤ group.length → mtimeAt group j ≤ mtimeAt group k) ∧
      (∀ j, 1 ≤ j → j ≤ group.length → mtimeAt group j = mtimeAt group k → j ≤ k)) ∧
    (∃ k, autoSelectKeepFiles group "oldest" = {k} ∧ 1 ≤ k ∧ k ≤ group.length ∧
      (∀ j, 1 ≤ j → j ≤ group.length → mtimeAt group k ≤ mtimeAt group j) ∧
      (∀ j, 1 ≤ j → j ≤ group.length → mtimeAt group j = mtimeAt group k → k ≤ j)) ∧
    (∃ k, autoSelectKeepFiles group "longest-name" = {k} ∧ 1 ≤ k ∧ k ≤ group.length ∧
      (∀ j, 1 ≤ j → j ≤ group.length → nameLenAt group j ≤ nameLenAt group k) ∧
      (∀ j, 1 ≤ j → j ≤ group.length → nameLenAt group j = nameLenAt group k → k ≤ j)) ∧
    (∃ k, autoSelectKeepFiles group "shortest-name" = {k} ∧ 1 ≤ k ∧ k ≤ group.length ∧
      (∀ j, 1 ≤ j → j ≤ group.length → nameLenAt group k ≤ nameLenAt group j) ∧
      (∀ j, 1 ≤ j → j ≤ group.length → nameLenAt group j = nameLenAt group k → k ≤ j)) :=
  ⟨autoSelect_newest_spec group hne, autoSelect_oldest_spec group hne,
   autoSelect_longest_spec group hne, autoSelect_shortest_spec group hne hbound⟩

/-- Claim C5, counterexample: two members with EQUAL mtimes; the claim says
`newest` keeps the lowest 1-based index (member 1), but the code keeps
member 2. -/
theorem autoSelect_newest_tie_cex :
    autoSelectKeepFiles [⟨"a", 5, 1⟩, ⟨"b", 5, 1⟩] "newest" = {2} ∧
    (FileRef.mk "a" 5 1).mtime = (FileRef.mk "b" 5 1).mtime ∧
    ({2} : Finset Nat) ≠ {1} := by
  refine ⟨by decide, rfl, by decide⟩

theorem autoSelect_tiebreak_witness :
    ∃ k, autoSelectKeepFiles [⟨"a", 3, 2⟩, ⟨"b", 7, 9⟩] "oldest" = {k} ∧
      1 ≤ k ∧ k ≤ ([⟨"a", 3, 2⟩, ⟨"b", 7, 9⟩] : List FileRef).length ∧
      (∀ j, 1 ≤ j → j ≤ ([⟨"a", 3, 2⟩, ⟨"b", 7, 9⟩] : List FileRef).length →
        mtimeAt [⟨"a", 3, 2⟩, ⟨"b", 7, 9⟩] k ≤ mtimeAt [⟨"a", 3, 2⟩, ⟨"b", 7, 9⟩] j) ∧
      (∀ j, 1 ≤ j → j ≤ ([⟨"a", 3, 2⟩, ⟨"b", 7, 9⟩] : List FileRef).length →
        mtimeAt [⟨"a", 3, 2⟩, ⟨"b", 7, 9⟩] j = mtimeAt [⟨"a", 3, 2⟩, ⟨"b", 7, 9⟩] k → k ≤ j) :=
  (autoSelect_tiebreak [⟨"a", 3, 2⟩, ⟨"b", 7, 9⟩] (by decide) (by decide)).2.1

/-- Claim C10: on a non-empty group each of the four strategy strings yields
a singleton keep set with a valid 1-based index; every other strategy string
yields the empty set; and the strategy menu maps every input (the unknown
ones falling back to `newest`) into the four valid strategies, which is why
the empty result is unreachable through the menu. -/
theorem autoSelect_strategy_domain :
    (∀ (group : List FileRef), group ≠ [] →
      ∀ s ∈ (["newest", "oldest", "longest-name", "shortest-name"] : List String),
        ∃ k, autoSelectKeepFiles group s = {k} ∧ 1 ≤ k ∧ k ≤ group.length) ∧
    (∀ (group : List FileRef) (s : String),
      s ∉ (["newest", "oldest", "longest-name", "shortest-name"] : List String) →
        autoSelectKeepFiles group s = ∅) ∧
    (∀ input, menuStrategy input ∈
      (["newest", "oldest", "longest-name", "shortest-name"] : List String)) := by
  refine ⟨?_, ?_, ?_⟩
  · intro group hne s hs
    have hpos : 0 < group.length := List.length_pos.mpr hne
    rcases List.mem_cons.mp hs with h | hs
    · obtain ⟨k, hk⟩ := autoSelect_newest_spec group hne
      exact ⟨k, h ▸ hk.1, hk.2.1, hk.2.2.1⟩
    rcases List.mem_cons.mp hs with h | hs
    · obtain ⟨k, hk⟩ := autoSelect_oldest_spec group hne
      exact ⟨k, h ▸ hk.1, hk.2.1, hk.2.2.1⟩
    rcases List.mem_cons.mp hs with h | hs
    · subst h
      rcases longestFrom_spec group 1 0 1 with ⟨heq, _⟩ | ⟨j, hj, heq, _⟩
      · exact ⟨1, by rw [autoSelect_longest_eq, heq], le_rfl, hpos⟩
      · exact ⟨1 + j, by rw [autoSelect_longest_eq, heq], by omega, by omega⟩
    rcases List.mem_cons.mp hs with h | hs
    · subst h
      rcases shortestFrom_spec group 1 (usizeMod - 1) 1 with ⟨heq, _⟩ | ⟨j, hj, heq, _⟩
      · exact ⟨1, by rw [autoSelect_shortest_eq, heq], le_rfl, hpos⟩
      · exact ⟨1 + j, by rw [autoSelect_shortest_eq, heq], by omega, by omega⟩
    simp at hs
  · intro group s hs
    simp only [List.mem_cons, List.not_mem_nil, or_false, not_or] at hs
    unfold autoSelectKeepFiles
    rw [if_neg hs.1, if_neg hs.2.1, if_neg hs.2.2.1, if_neg hs.2.2.2]
  · intro input
    unfold menuStrategy
    split_ifs <;> simp

theorem autoSelect_strategy_domain_witness :
    (∃ k, autoSelectKeepFiles [⟨"a", 3, 2⟩] "shortest-name" = {k} ∧
      1 ≤ k ∧ k ≤ ([⟨"a", 3, 2⟩] : List FileRef).length) ∧
    autoSelectKeepFiles [⟨"a", 3, 2⟩] "unknown" = ∅ ∧
    menuStrategy "7" ∈ (["newest", "oldest", "longest-name", "shortest-name"] : List String) :=
  ⟨autoSelect_strategy_domain.1 [⟨"a", 3, 2⟩] (by decide) "shortest-name" (by decide),
   autoSelect_strategy_domain.2.1 [⟨"a", 3, 2⟩] "unknown" (by decide),
   autoSelect_strategy_domain.2.2 "7"⟩

/-- A filesystem entry: path with its metadata (size in bytes, mtime). -/
structure FileEntry where
  path : String
  size : Nat
  mtime : Nat
deriving DecidableEq

/-- Effect of `fs::remove(p)` on the modelled filesystem. -/
def removeFile (fs : List FileEntry) (p : String) : List FileEntry :=
  fs.filter (fun e => !(e.path == p))

/-- Effect of `fs::file_size(p)` on the modelled filesystem (0 if absent;
on a real filesystem the absent case throws, which the deletion loop of the
C++ does not catch, aborting the whole run — no deletion differences arise
from this totalization). -/
def fileSizeOf (fs : List FileEntry) (p : String) : Nat :=
  ((fs.find? (fun e => e.path == p)).map FileEntry.size).getD 0

/-- Per-group deletion loop shared by `performDeletionWithCustomRetention`
and `performGlobalDeletionWithCustomRetention` (lines 904-927, 956-979):
walk the members with their 1-based index `i`; a member whose index is in the
keep set is skipped, otherwise its size is read and, unless `dryRun`, the
file is removed.  Returns (filesystem, successfullyDeleted, actualSpaceSaved,
trace of `fs::remove` calls issued). -/
def delGroupFrom (dryRun : Bool) (keepSet : Finset Nat) :
    Nat → List FileEntry → List FileRef → List FileEntry × Nat × Nat × List String
  | _, fs, [] => (fs, 0, 0, [])
  | i, fs, m :: rest =>
    if i ∈ keepSet then delGroupFrom dryRun keepSet (i + 1) fs rest
    else
      let fileSize := fileSizeOf fs m.path
      if dryRun then
        let r := delGroupFrom dryRun keepSet (i + 1) fs rest
        (r.1, r.2.1 + 1, r.2.2.1 + fileSize, r.2.2.2)
      else
        let r := delGroupFrom dryRun keepSet (i + 1) (removeFile fs m.path) rest
        (r.1, r.2.1 + 1, r.2.2.1 + fileSize, m.path :: r.2.2.2)

/-- One group's deletion pass (the inner `i` loop). -/
def deleteFromGroup (dryRun : Bool) (group : List FileRef) (keepSet : Finset Nat)
    (fs : List FileEntry) : List FileEntry × Nat × Nat × List String :=
  delGroupFrom dryRun keepSet 1 fs group

/-- Outer loop over the groups (`groupIndex`), accumulating the counters and
the call trace. -/
def performDeletionGo (dryRun : Bool) (keepFiles : List (Finset Nat)) :
    Nat → List FileEntry → List (List FileRef) → List FileEntry × Nat × Nat × List String
  | _, fs, [] => (fs, 0, 0, [])
  | gi, fs, g :: rest =>
    let r := deleteFromGroup dryRun g (keepFiles.getD gi ∅) fs
    let r2 := performDeletionGo dryRun keepFiles (gi + 1) r.1 rest
    (r2.1, r.2.1 + r2.2.1, r.2.2.1 + r2.2.2.1, r.2.2.2 ++ r2.2.2.2)

/-- Embedding of `performDeletionWithCustomRetention` (lines 948-995). -/
def performDeletionWithCustomRetention (dryRun : Bool)
    (duplicateGroups : List (List FileRef)) (keepFiles : List (Finset Nat))
    (fs : List FileEntry) : List FileEntry × Nat × Nat × List String :=
  performDeletionGo dryRun keepFiles 0 fs duplicateGroups

/-- Embedding of `performGlobalDeletionWithCustomRetention` (lines 895-943):
its body is character-identical to `performDeletionWithCustomRetention`; the
extra `totalSpaceSaved` argument is accepted and never used (spec §9 calls it
vestigial). -/
def performGlobalDeletionWithCustomRetention (dryRun : Bool)
    (duplicateGroups : List (List FileRef)) (keepFiles : List (Finset Nat))
    (totalSpaceSaved : Nat) (fs : List FileEntry) :
    List FileEntry × Nat × Nat × List String :=
  performDeletionGo dryRun keepFiles 0 fs duplicateGroups

theorem delGroupFrom_dryRun : ∀ (keepSet : Finset Nat) (group : List FileRef)
    (i : Nat) (fs : List FileEntry),
    (delGroupFrom true keepSet i fs group).1 = fs ∧
    (delGroupFrom true keepSet i fs group).2.2.2 = [] := by
  intro keepSet group
  induction group with
  | nil => intro i fs; exact ⟨rfl, rfl⟩
  | cons m rest ih =>
    intro i fs
    by_cases h : i ∈ keepSet
    · unfold delGroupFrom
      rw [if_pos h]
      exact ih (i + 1) fs
    · unfold delGroupFrom
      rw [if_neg h]
      simp only [if_true]
      exact ih (i + 1) fs

theorem performDeletionGo_dryRun : ∀ (keepFiles : List (Finset Nat))
    (groups : List (List FileRef)) (gi : Nat) (fs : List FileEntry),
    (performDeletionGo true keepFiles gi fs groups).1 = fs ∧
    (performDeletionGo true keepFiles gi fs groups).2.2.2 = [] := by
  intro keepFiles groups
  induction groups with
  | nil => intro gi fs; exact ⟨rfl, rfl⟩
  | cons g rest ih =>
    intro gi fs
    unfold performDeletionGo deleteFromGroup
    have hg := delGroupFrom_dryRun (keepFiles.getD gi ∅) g 1 fs
    constructor
    · dsimp only
      rw [hg.1, (ih (gi + 1) fs).1]
    · dsimp only
      rw [hg.1, hg.2, (ih (gi + 1) fs).2]
      rfl

/-- Claim C4: with dry-run set, for every scan result, retention plan and
filesystem, neither deleter issues a single `fs::remove` call and the
filesystem (file set with sizes and mtimes) is unchanged; only the counters
of the simulated report are produced. -/
theorem dryRun_preserves_filesystem (duplicateGroups : List (List FileRef))
    (keepFiles : List (Finset Nat)) (totalSpaceSaved : Nat) (fs : List FileEntry) :
    (performDeletionWithCustomRetention true duplicateGroups keepFiles fs).1 = fs ∧
    (performDeletionWithCustomRetention true duplicateGroups keepFiles fs).2.2.2 = [] ∧
    (performGlobalDeletionWithCustomRetention true duplicateGroups keepFiles
      totalSpaceSaved fs).1 = fs ∧
    (performGlobalDeletionWithCustomRetention true duplicateGroups keepFiles
      totalSpaceSaved fs).2.2.2 = [] := by
  have h := performDeletionGo_dryRun keepFiles duplicateGroups 0 fs
  exact ⟨h.1, h.2, h.1, h.2⟩

/-- Embedding of `askForConfirmation` (lines 173-191): under auto-confirm the
function prints and returns `true` without reading input; otherwise it reads
a line (empty line or end of input gives the default) and answers whether the
lowercased first character is `y`. -/
def askForConfirmation (autoConfirm : Bool) (defaultYes : Bool)
    (input : List String) : Bool :=
  if autoConfirm then true
  else
    match input with
    | [] => defaultYes
    | response :: _ =>
      match response.toList with
      | [] => defaultYes
      | c :: _ => asciiToLower c = 'y'

/-- Claim C6 (corrected): with `-y`/`--yes` every prompt resolves to YES,
regardless of the prompt's default; in particular the delete-confirm prompt
(default NO) resolves to YES, so deletion proceeds under `--yes`. -/
theorem askForConfirmation_autoConfirm_yes (defaultYes : Bool) (input : List String) :
    askForConfirmation true defaultYes input = true := by
  unfold askForConfirmation
  rw [if_pos rfl]

/-- Claim C6, counterexample: the delete-confirm prompt has default NO
(`defaultYes = false`), yet under auto-confirm the answer is not that
default — it is `true`. -/
theorem askForConfirmation_default_cex :
    askForConfirmation true false [] ≠ false := by
  decide

theorem getD_map_lt {α β : Type} (f : α → β) (l : List α) (gi : Nat)
    (h : gi < l.length) (dA : α) (dB : β) :
    (l.map f).getD gi dB = f (l.getD gi dA) := by
  rw [List.getD_eq_getElem?_getD, List.getElem?_map, List.getElem?_eq_getElem h,
    List.getD_eq_getElem l dA h]
  rfl

theorem getD_mem' {α : Type} (l : List α) (j : Nat) (d : α) (h : j < l.length) :
    l.getD j d ∈ l := by
  rw [List.getD_eq_getElem l d h]
  exact List.getElem_mem h

theorem getD_set_self {α : Type} (l : List α) (i : Nat) (v d : α) (h : i < l.length) :
    (l.set i v).getD i d = v := by
  induction l generalizing i with
  | nil => simp at h
  | cons a t ih =>
    match i with
    | 0 => rfl
    | i + 1 =>
      simp only [List.set_cons_succ, List.getD_cons_succ]
      exact ih i (by simpa using h)

theorem getD_set_ne {α : Type} (l : List α) (i j : Nat) (v d : α) (h : i ≠ j) :
    (l.set i v).getD j d = l.getD j d := by
  induction l generalizing i j with
  | nil => simp [List.set]
  | cons a t ih =>
    match i, j with
    | 0, 0 => exact absurd rfl h
    | 0, j + 1 => rfl
    | i + 1, 0 => rfl
    | i + 1, j + 1 =>
      simp only [List.set_cons_succ, List.getD_cons_succ]
      exact ih i j (by omega)

theorem parseSelection_bounds : ∀ (cs : List Char) (n : Nat) (s : Finset Nat),
    parseSelection n cs = some s → ∀ x ∈ s, 1 ≤ x ∧ x ≤ n := by
  intro cs
  induction cs with
  | nil =>
    intro n s h x hx
    unfold parseSelection at h
    injection h with h
    subst h
    simp at hx
  | cons c cs ih =>
    intro n s h x hx
    unfold parseSelection at h
    by_cases h1 : c < '1' ∨ '9' < c
    · rw [if_pos h1] at h
      exact absurd h (by simp)
    · rw [if_neg h1] at h
      by_cases h2 : n < c.toNat - 48
      · rw [if_pos h2] at h
        exact absurd h (by simp)
      · rw [if_neg h2] at h
        match hps : parseSelection n cs with
        | none =>
          rw [hps] at h
          exact absurd h (by simp)
        | some s2 =>
          rw [hps] at h
          simp only [Option.map_some'] at h
          injection h with h
          subst h
          rcases Finset.mem_insert.mp hx with hx1 | hx2
          · subst hx1
            push_neg at h1
            have h49 : (49 : Nat) ≤ c.toNat := by
              have := h1.1
              rw [Char.le_def] at this
              exact this
            omega
          · exact ih n s2 hps x hx2

/-- Invariant of the retention plan: one keep set per group, every keep set
non-empty and a subset of the group's valid 1-based indices. -/
def KeepInv (groups : List (List FileRef)) (keep : List (Finset Nat)) : Prop :=
  keep.length = groups.length ∧
  ∀ gi, gi < groups.length →
    (keep.getD gi ∅).Nonempty ∧
    ∀ x ∈ keep.getD gi ∅, 1 ≤ x ∧ x ≤ (groups.getD gi []).length

theorem autoSelect_menu_valid (group : List FileRef) (hne : group ≠ []) (input : String) :
    ∃ k, autoSelectKeepFiles group (menuStrategy input) = {k} ∧ 1 ≤ k ∧ k ≤ group.length := by
  have hpos : 0 < group.length := List.length_pos.mpr hne
  have hnewest : ∃ k, autoSelectKeepFiles group "newest" = {k} ∧ 1 ≤ k ∧ k ≤ group.length := by
    obtain ⟨k, h⟩ := autoSelect_newest_spec group hne
    exact ⟨k, h.1, h.2.1, h.2.2.1⟩
  unfold menuStrategy
  split_ifs
  · exact hnewest
  · obtain ⟨k, h⟩ := autoSelect_oldest_spec group hne
    exact ⟨k, h.1, h.2.1, h.2.2.1⟩
  · rcases longestFrom_spec group 1 0 1 with ⟨heq, _⟩ | ⟨j, hj, heq, _⟩
    · exact ⟨1, by rw [autoSelect_longest_eq, heq], le_rfl, hpos⟩
    · exact ⟨1 + j, by rw [autoSelect_longest_eq, heq], by omega, by omega⟩
  · rcases shortestFrom_spec group 1 (usizeMod - 1) 1 with ⟨heq, _⟩ | ⟨j, hj, heq, _⟩
    · exact ⟨1, by rw [autoSelect_shortest_eq, heq], le_rfl, hpos⟩
    · exact ⟨1 + j, by rw [autoSelect_shortest_eq, heq], by omega, by omega⟩
  · exact hnewest

theorem keepInv_set (groups : List (List FileRef)) (keep : List (Finset Nat))
    (idx : Nat) (v : Finset Nat) (hinv : KeepInv groups keep) (hidx : idx < groups.length)
    (hne : v.Nonempty) (hbound : ∀ x ∈ v, 1 ≤ x ∧ x ≤ (groups.getD idx []).length) :
    KeepInv groups (keep.set idx v) := by
  obtain ⟨hlen, hall⟩ := hinv
  refine ⟨by rw [List.length_set]; exact hlen, ?_⟩
  intro gi hgi
  by_cases heq : idx = gi
  · subst heq
    rw [getD_set_self keep idx v ∅ (by omega)]
    exact ⟨hne, hbound⟩
  · rw [getD_set_ne keep idx gi v ∅ heq]
    exact hall gi hgi

theorem retentionStep_inv (groups : List (List FileRef)) (keep : List (Finset Nat))
    (line : String) (rest : List String)
    (hg : ∀ g ∈ groups, g ≠ []) (hinv : KeepInv groups keep) :
    KeepInv groups (retentionStep groups keep line rest).1 := by
  unfold retentionStep
  by_cases h0 : line = ""
  · rw [if_pos h0]; exact hinv
  rw [if_neg h0]
  by_cases h1 : toLowerL line.toList = "done".toList
  · rw [if_pos h1]; exact hinv
  rw [if_neg h1]
  by_cases h2 : toLowerL line.toList = "list".toList
  · rw [if_pos h2]; exact hinv
  rw [if_neg h2]
  by_cases h3 : toLowerL line.toList = "all".toList
  · rw [if_pos h3]
    refine ⟨by simp, ?_⟩
    intro gi hgi
    rw [getD_map_lt _ groups gi hgi []]
    have hne := hg _ (getD_mem' groups gi [] hgi)
    obtain ⟨k, hk, hk1, hk2⟩ := autoSelect_menu_valid (groups.getD gi []) hne (takeLine rest).1
    rw [hk]
    refine ⟨Finset.singleton_nonempty k, ?_⟩
    intro x hx
    rw [Finset.mem_singleton] at hx
    subst hx
    exact ⟨hk1, hk2⟩
  rw [if_neg h3]
  by_cases h4 : startsWithL "view".toList (toLowerL line.toList) = true
  · rw [if_pos h4]; exact hinv
  rw [if_neg h4]
  by_cases h5 : toLowerL line.toList = "auto".toList
  · rw [if_pos h5]
    rcases hst : stoiOpt (takeLine rest).1 with _ | n
    · simp only [hst]
      exact hinv
    · simp only [hst]
      by_cases h6 : n < 1 ∨ (groups.length : Int) < n
      · rw [if_pos h6]; exact hinv
      · rw [if_neg h6]
        push_neg at h6
        have hidx : (n - 1).toNat < groups.length := by omega
        have hne := hg _ (getD_mem' groups (n - 1).toNat [] hidx)
        obtain ⟨k, hk, hk1, hk2⟩ :=
          autoSelect_menu_valid (groups.getD (n - 1).toNat []) hne (takeLine (takeLine rest).2).1
        apply keepInv_set groups keep _ _ hinv hidx
        · rw [hk]; exact Finset.singleton_nonempty k
        · rw [hk]
          intro x hx
          rw [Finset.mem_singleton] at hx
          subst hx
          exact ⟨hk1, hk2⟩
  rw [if_neg h5]
  rcases hst : stoiOpt line with _ | n
  · simp only [hst]
    exact hinv
  · simp only [hst]
    by_cases h6 : n < 1 ∨ (groups.length : Int) < n
    · rw [if_pos h6]; exact hinv
    · rw [if_neg h6]
      push_neg at h6
      have hidx : (n - 1).toNat < groups.length := by omega
      rcases hps : parseSelection (groups.getD (n - 1).toNat []).length
          (takeLine rest).1.toList with _ | sel
      · simp only [hps]
        exact hinv
      · simp only [hps]
        by_cases h7 : sel = ∅
        · rw [if_pos h7]; exact hinv
        · rw [if_neg h7]
          apply keepInv_set groups keep _ _ hinv hidx
          · exact Finset.nonempty_iff_ne_empty.mpr h7
          · exact parseSelection_bounds _ _ _ hps

theorem initKeep_inv (groups : List (List FileRef)) (hg : ∀ g ∈ groups, g ≠ []) :
    KeepInv groups (initKeep groups) := by
  refine ⟨by simp [initKeep], ?_⟩
  intro gi hgi
  unfold initKeep
  rw [getD_map_lt _ groups gi hgi []]
  refine ⟨Finset.singleton_nonempty 1, ?_⟩
  intro x hx
  rw [Finset.mem_singleton] at hx
  subst hx
  have hne := hg _ (getD_mem' groups gi [] hgi)
  exact ⟨le_rfl, List.length_pos.mpr hne⟩

theorem runRetention_inv (groups : List (List FileRef)) (hg : ∀ g ∈ groups, g ≠ []) :
    ∀ (fuel : Nat) (keep : List (Finset Nat)) (script : List String),
    KeepInv groups keep → KeepInv groups (runRetention groups fuel keep script) := by
  intro fuel
  induction fuel with
  | zero => intro keep script h; exact h
  | succ fuel ih =>
    intro keep script h
    match script with
    | [] => exact h
    | line :: rest =>
      unfold runRetention
      by_cases hdone : (retentionStep groups keep line rest).2.2 = true
      · rw [if_pos hdone]
        exact retentionStep_inv groups keep line rest hg h
      · rw [if_neg hdone]
        exact ih _ _ (retentionStep_inv groups keep line rest hg h)

theorem delGroupFrom_calls_le : ∀ (group : List FileRef) (ks : Finset Nat)
    (i : Nat) (fs : List FileEntry),
    (delGroupFrom false ks i fs group).2.2.2.length ≤ group.length := by
  intro group
  induction group with
  | nil => intro ks i fs; simp [delGroupFrom]
  | cons m rest ih =>
    intro ks i fs
    unfold delGroupFrom
    by_cases h : i ∈ ks
    · rw [if_pos h]
      have := ih ks (i + 1) fs
      simp only [List.length_cons]
      omega
    · rw [if_neg h]
      simp only [Bool.false_eq_true, if_false, List.length_cons]
      have := ih ks (i + 1) (removeFile fs m.path)
      omega

theorem delGroupFrom_calls_lt : ∀ (group : List FileRef) (ks : Finset Nat)
    (i j : Nat) (fs : List FileEntry), j < group.length → (i + j) ∈ ks →
    (delGroupFrom false ks i fs group).2.2.2.length < group.length := by
  intro group
  induction group with
  | nil => intro ks i j fs hj; simp at hj
  | cons m rest ih =>
    intro ks i j fs hj hks
    unfold delGroupFrom
    by_cases h : i ∈ ks
    · rw [if_pos h]
      have := delGroupFrom_calls_le rest ks (i + 1) fs
      simp only [List.length_cons]
      omega
    · rw [if_neg h]
      simp only [Bool.false_eq_true, if_false, List.length_cons]
      match j with
      | 0 => exact absurd hks (by simpa using h)
      | j + 1 =>
        have := ih ks (i + 1) j (removeFile fs m.path) (by simpa using hj)
          (by rw [show i + 1 + j = i + (j + 1) by omega]; exact hks)
        omega

/-- Claim C3: starting from the default plan (`keep[g] = {1}`), after any
number of loop iterations on any operator input every keep set is a non-empty
subset of the group's 1-based indices, and consequently the deletion pass of
each group issues strictly fewer `fs::remove` calls than the group has
members: at least one member of every group is left undeleted. -/
theorem retention_keep_invariant (groups : List (List FileRef)) (fuel : Nat)
    (script : List String) (hg : ∀ g ∈ groups, g ≠ []) :
    ((runRetention groups fuel (initKeep groups) script).length = groups.length ∧
      ∀ gi, gi < groups.length →
        ((runRetention groups fuel (initKeep groups) script).getD gi ∅).Nonempty ∧
        ∀ x ∈ (runRetention groups fuel (initKeep groups) script).getD gi ∅,
          1 ≤ x ∧ x ≤ (groups.getD gi []).length) ∧
    (∀ gi, gi < groups.length → ∀ fs : List FileEntry,
      ((deleteFromGroup false (groups.getD gi [])
        ((runRetention groups fuel (initKeep groups) script).getD gi ∅) fs).2.2.2).length
        < (groups.getD gi []).length) := by
  have hinv := runRetention_inv groups hg fuel (initKeep groups) script
    (initKeep_inv groups hg)
  refine ⟨hinv, ?_⟩
  intro gi hgi fs
  obtain ⟨⟨x, hx⟩, hbound⟩ := hinv.2 gi hgi
  have hb := hbound x hx
  unfold deleteFromGroup
  apply delGroupFrom_calls_lt _ _ 1 (x - 1) fs (by omega)
  rw [show 1 + (x - 1) = x by omega]
  exact hx

theorem retention_keep_invariant_witness :
    ((runRetention [[⟨"a", 1, 1⟩, ⟨"b", 2, 1⟩]] 1
        (initKeep [[⟨"a", 1, 1⟩, ⟨"b", 2, 1⟩]]) ["done"]).getD 0 ∅).Nonempty ∧
    ((deleteFromGroup false (([[⟨"a", 1, 1⟩, ⟨"b", 2, 1⟩]] : List (List FileRef)).getD 0 [])
        ((runRetention [[⟨"a", 1, 1⟩, ⟨"b", 2, 1⟩]] 1
          (initKeep [[⟨"a", 1, 1⟩, ⟨"b", 2, 1⟩]]) ["done"]).getD 0 ∅) []).2.2.2).length
      < (([[⟨"a", 1, 1⟩, ⟨"b", 2, 1⟩]] : List (List FileRef)).getD 0 []).length :=
  ⟨((retention_keep_invariant [[⟨"a", 1, 1⟩, ⟨"b", 2, 1⟩]] 1 ["done"]
      (by decide)).1.2 0 (by decide)).1,
   (retention_keep_invariant [[⟨"a", 1, 1⟩, ⟨"b", 2, 1⟩]] 1 ["done"]
      (by decide)).2 0 (by decide) []⟩

theorem parseSelection_none_of_bad : ∀ (cs : List Char) (n : Nat),
    (∃ c ∈ cs, c < '1' ∨ '9' < c ∨ n < c.toNat - 48) →
    parseSelection n cs = none := by
  intro cs
  induction cs with
  | nil =>
    intro n h
    obtain ⟨c, hc, _⟩ := h
    simp at hc
  | cons c cs ih =>
    intro n h
    unfold parseSelection
    by_cases h1 : c < '1' ∨ '9' < c
    · rw [if_pos h1]
    · rw [if_neg h1]
      by_cases h2 : n < c.toNat - 48
      · rw [if_pos h2]
      · rw [if_neg h2]
        obtain ⟨c2, hc2, hbad⟩ := h
        rcases List.mem_cons.mp hc2 with hh | hh
        · subst hh
          push_neg at h1
          rcases hbad with hb | hb | hb
          · exact absurd hb (not_lt.mpr h1.1)
          · exact absurd hb (not_lt.mpr h1.2)
          · exact absurd hb h2
        · rw [ih n ⟨c2, hh, hbad⟩]
          rfl

/-- Claim C9: in the interactive retention loop invalid operator input never
mutates the retention plan.  The cases: a bare command that `stoi` rejects; a
bare group number out of `1..G`; a group edit whose member selection contains
a character outside `1..9` or a digit exceeding the group size; a group edit
with an empty selection; any `view` line; an `auto` command whose group line
`stoi` rejects or whose group number is out of range. -/
theorem retention_invalid_no_mutation (groups : List (List FileRef))
    (keep : List (Finset Nat)) (line : String) (rest : List String) :
    (line ≠ "" →
      toLowerL line.toList ≠ "done".toList →
      toLowerL line.toList ≠ "list".toList →
      toLowerL line.toList ≠ "all".toList →
      startsWithL "view".toList (toLowerL line.toList) = false →
      toLowerL line.toList ≠ "auto".toList →
      stoiOpt line = none →
      (retentionStep groups keep line rest).1 = keep) ∧
    (line ≠ "" →
      toLowerL line.toList ≠ "done".toList →
      toLowerL line.toList ≠ "list".toList →
      toLowerL line.toList ≠ "all".toList →
      startsWithL "view".toList (toLowerL line.toList) = false →
      toLowerL line.toList ≠ "auto".toList →
      ∀ n, stoiOpt line = some n → (n < 1 ∨ (groups.length : Int) < n) →
      (retentionStep groups keep line rest).1 = keep) ∧
    (line ≠ "" →
      toLowerL line.toList ≠ "done".toList →
      toLowerL line.toList ≠ "list".toList →
      toLowerL line.toList ≠ "all".toList →
      startsWithL "view".toList (toLowerL line.toList) = false →
      toLowerL line.toList ≠ "auto".toList →
      ∀ n, stoiOpt line = some n → 1 ≤ n → n ≤ (groups.length : Int) →
      (∃ c ∈ (takeLine rest).1.toList,
        c < '1' ∨ '9' < c ∨ (groups.getD (n - 1).toNat []).length < c.toNat - 48) →
      (retentionStep groups keep line rest).1 = keep) ∧
    (line ≠ "" →
      toLowerL line.toList ≠ "done".toList →
      toLowerL line.toList ≠ "list".toList →
      toLowerL line.toList ≠ "all".toList →
      startsWithL "view".toList (toLowerL line.toList) = false →
      toLowerL line.toList ≠ "auto".toList →
      ∀ n, stoiOpt line = some n → 1 ≤ n → n ≤ (groups.length : Int) →
      (takeLine rest).1 = "" →
      (retentionStep groups keep line rest).1 = keep) ∧
    (startsWithL "view".toList (toLowerL line.toList) = true →
      toLowerL line.toList ≠ "done".toList →
      toLowerL line.toList ≠ "list".toList →
      toLowerL line.toList ≠ "all".toList →
      (retentionStep groups keep line rest).1 = keep) ∧
    (toLowerL line.toList = "auto".toList →
      stoiOpt (takeLine rest).1 = none →
      (retentionStep groups keep line rest).1 = keep) ∧
    (toLowerL line.toList = "auto".toList →
      ∀ n, stoiOpt (takeLine rest).1 = some n → (n < 1 ∨ (groups.length : Int) < n) →
      (retentionStep groups keep line rest).1 = keep) := by
  have hlower_ne : ∀ (s : List Char), toLowerL line.toList = s → s ≠ [] → line ≠ "" := by
    intro s hs hne hline
    subst hline
    simp [toLowerL] at hs
    exact hne hs
  refine ⟨?_, ?_, ?_, ?_, ?_, ?_, ?_⟩
  · intro h0 h1 h2 h3 h4 h5 hst
    unfold retentionStep
    rw [if_neg h0, if_neg h1, if_neg h2, if_neg h3, if_neg (by rw [h4]; simp),
      if_neg h5]
    simp only [hst]
  · intro h0 h1 h2 h3 h4 h5 n hst hrange
    unfold retentionStep
    rw [if_neg h0, if_neg h1, if_neg h2, if_neg h3, if_neg (by rw [h4]; simp),
      if_neg h5]
    simp only [hst]
    rw [if_pos hrange]
  · intro h0 h1 h2 h3 h4 h5 n hst hlo hhi hbad
    unfold retentionStep
    rw [if_neg h0, if_neg h1, if_neg h2, if_neg h3, if_neg (by rw [h4]; simp),
      if_neg h5]
    simp only [hst]
    rw [if_neg (by omega)]
    rw [parseSelection_none_of_bad _ _ hbad]
  · intro h0 h1 h2 h3 h4 h5 n hst hlo hhi hemp
    unfold retentionStep
    rw [if_neg h0, if_neg h1, if_neg h2, if_neg h3, if_neg (by rw [h4]; simp),
      if_neg h5]
    simp only [hst]
    rw [if_neg (by omega), hemp]
    simp only [String.toList_empty]
    unfold parseSelection
    simp
  · intro h4 h1 h2 h3
    have h0 : line ≠ "" := by
      intro hline
      subst hline
      exact absurd h4 (by decide)
    unfold retentionStep
    rw [if_neg h0, if_neg h1, if_neg h2, if_neg h3, if_pos h4]
  · intro h5 hst
    have h0 : line ≠ "" := hlower_ne _ h5 (by decide)
    have h1 : toLowerL line.toList ≠ "done".toList := by rw [h5]; decide
    have h2 : toLowerL line.toList ≠ "list".toList := by rw [h5]; decide
    have h3 : toLowerL line.toList ≠ "all".toList := by rw [h5]; decide
    have h4 : startsWithL "view".toList (toLowerL line.toList) = false := by
      rw [h5]; decide
    unfold retentionStep
    rw [if_neg h0, if_neg h1, if_neg h2, if_neg h3, if_neg (by rw [h4]; simp),
      if_pos h5]
    simp only [hst]
  · intro h5 n hst hrange
    have h0 : line ≠ "" := hlower_ne _ h5 (by decide)
    have h1 : toLowerL line.toList ≠ "done".toList := by rw [h5]; decide
    have h2 : toLowerL line.toList ≠ "list".toList := by rw [h5]; decide
    have h3 : toLowerL line.toList ≠ "all".toList := by rw [h5]; decide
    have h4 : startsWithL "view".toList (toLowerL line.toList) = false := by
      rw [h5]; decide
    unfold retentionStep
    rw [if_neg h0, if_neg h1, if_neg h2, if_neg h3, if_neg (by rw [h4]; simp),
      if_pos h5]
    simp only [hst]
    rw [if_pos hrange]

theorem retention_invalid_no_mutation_witness :
    (retentionStep [[⟨"a", 1, 1⟩]] [{1}] "xyz" []).1 = [{1}] ∧
    (retentionStep [[⟨"a", 1, 1⟩]] [{1}] "5" []).1 = [{1}] ∧
    (retentionStep [[⟨"a", 1, 1⟩]] [{1}] "1" ["ab"]).1 = [{1}] ∧
    (retentionStep [[⟨"a", 1, 1⟩]] [{1}] "1" [""]).1 = [{1}] ∧
    (retentionStep [[⟨"a", 1, 1⟩]] [{1}] "view 99" []).1 = [{1}] ∧
    (retentionStep [[⟨"a", 1, 1⟩]] [{1}] "auto" ["x"]).1 = [{1}] ∧
    (retentionStep [[⟨"a", 1, 1⟩]] [{1}] "auto" ["7"]).1 = [{1}] :=
  ⟨(retention_invalid_no_mutation [[⟨"a", 1, 1⟩]] [{1}] "xyz" []).1
      (by decide) (by decide) (by decide) (by decide) (by decide) (by decide) (by decide),
   (retention_invalid_no_mutation [[⟨"a", 1, 1⟩]] [{1}] "5" []).2.1
      (by decide) (by decide) (by decide) (by decide) (by decide) (by decide)
      5 (by decide) (by decide),
   (retention_invalid_no_mutation [[⟨"a", 1, 1⟩]] [{1}] "1" ["ab"]).2.2.1
      (by decide) (by decide) (by decide) (by decide) (by decide) (by decide)
      1 (by decide) (by decide) (by decide) (by decide),
   (retention_invalid_no_mutation [[⟨"a", 1, 1⟩]] [{1}] "1" [""]).2.2.2.1
      (by decide) (by decide) (by decide) (by decide) (by decide) (by decide)
      1 (by decide) (by decide) (by decide) (by decide),
   (retention_invalid_no_mutation [[⟨"a", 1, 1⟩]] [{1}] "view 99" []).2.2.2.2.1
      (by decide) (by decide) (by decide) (by decide),
   (retention_invalid_no_mutation [[⟨"a", 1, 1⟩]] [{1}] "auto" ["x"]).2.2.2.2.2.1
      (by decide) (by decide),
   (retention_invalid_no_mutation [[⟨"a", 1, 1⟩]] [{1}] "auto" ["7"]).2.2.2.2.2.2
      (by decide) 7 (by decide) (by decide)⟩

theorem keyPositions_overflow_value :
    keyPositions 9223372036854775807 2 5 = [0, 1, 3] := by
  unfold keyPositions
  rw [uniqueAdj_cppSort_eq_sortedNodup]
  apply sorted_lt_eq_of_mem_iff
  · exact sortedNodup_sorted _
  · decide
  · intro x
    rw [mem_sortedNodup]
    constructor
    · intro hx
      rcases List.mem_cons.mp hx with h0 | hx2
      · subst h0; decide
      rcases List.mem_append.mp hx2 with hA | h3
      · obtain ⟨i, hi, hfi⟩ := List.mem_map.mp hA
        have hi2 := List.mem_range'_1.mp hi
        have hmodW : 5 * i % usizeMod < usizeMod := Nat.mod_lt _ (by decide)
        have hdiv : 5 * i % usizeMod / ((9223372036854775807 + 1) % usizeMod) ≤ 1 := by
          rw [show (9223372036854775807 + 1) % usizeMod = 9223372036854775808 from by decide]
          have h2 : 5 * i % usizeMod < 2 * 9223372036854775808 := by
            simp only [usizeMod] at hmodW ⊢
            omega
          have hq : 5 * i % usizeMod / 9223372036854775808 < 2 :=
            (Nat.div_lt_iff_lt_mul (by decide : 0 < 9223372036854775808)).mpr h2
          omega
        have hxle : x ≤ 1 := hfi ▸ hdiv
        have : x = 0 ∨ x = 1 := by omega
        rcases this with h | h <;> subst h <;> decide
      · rw [List.mem_singleton.mp h3]; decide
    · intro hx
      rcases List.mem_cons.mp hx with h0 | hx2
      · subst h0
        exact List.mem_cons_self _ _
      rcases List.mem_cons.mp hx2 with h1 | hx3
      · subst h1
        apply List.mem_cons_of_mem
        apply List.mem_append_left
        apply List.mem_map.mpr
        refine ⟨1844674407370955162, List.mem_range'_1.mpr ⟨by decide, by decide⟩, by decide⟩
      rcases List.mem_cons.mp hx3 with h3 | hx4
      · subst h3
        apply List.mem_cons_of_mem
        apply List.mem_append_right
        decide
      · simp at hx4

theorem specOffsets_overflow_value :
    specOffsets 9223372036854775807 2 5 = [0, 1, 2, 3, 4] := by
  unfold specOffsets
  apply sorted_lt_eq_of_mem_iff
  · exact sortedNodup_sorted _
  · decide
  · intro x
    rw [mem_sortedNodup]
    constructor
    · intro hx
      rcases List.mem_cons.mp hx with h0 | hx2
      · subst h0; decide
      rcases List.mem_append.mp hx2 with hA | h3
      · obtain ⟨i, hi, hfi⟩ := List.mem_map.mp hA
        have hi2 := List.mem_range'_1.mp hi
        have hdiv : 5 * i / (9223372036854775807 + 1) ≤ 4 := by
          have h5i : 5 * i < 5 * (9223372036854775807 + 1) := by omega
          have hq : 5 * i / (9223372036854775807 + 1) < 5 :=
            (Nat.div_lt_iff_lt_mul (by decide : 0 < 9223372036854775807 + 1)).mpr h5i
          omega
        have hxle : x ≤ 4 := hfi ▸ hdiv
        have : x = 0 ∨ x = 1 ∨ x = 2 ∨ x = 3 ∨ x = 4 := by omega
        rcases this with h | h | h | h | h <;> subst h <;> decide
      · rw [List.mem_singleton.mp h3]; decide
    · intro hx
      rcases List.mem_cons.mp hx with h0 | hx2
      · subst h0
        exact List.mem_cons_self _ _
      rcases List.mem_cons.mp hx2 with h1 | hx3
      · subst h1
        apply List.mem_cons_of_mem
        apply List.mem_append_left
        apply List.mem_map.mpr
        exact ⟨1844674407370955162, List.mem_range'_1.mpr ⟨by decide, by decide⟩, by decide⟩
      rcases List.mem_cons.mp hx3 with h2 | hx4
      · subst h2
        apply List.mem_cons_of_mem
        apply List.mem_append_left
        apply List.mem_map.mpr
        exact ⟨3689348814741910324, List.mem_range'_1.mpr ⟨by decide, by decide⟩, by decide⟩
      rcases List.mem_cons.mp hx4 with h3 | hx5
      · subst h3
        apply List.mem_cons_of_mem
        apply List.mem_append_left
        apply List.mem_map.mpr
        exact ⟨5534023222112865485, List.mem_range'_1.mpr ⟨by decide, by decide⟩, by decide⟩
      rcases List.mem_cons.mp hx5 with h4 | hx6
      · subst h4
        apply List.mem_cons_of_mem
        apply List.mem_append_left
        apply List.mem_map.mpr
        exact ⟨9223372036854775807, List.mem_range'_1.mpr ⟨by decide, by decide⟩, by decide⟩
      · simp at hx6

/-- Claim C8, counterexample: with `samplePoints = 2^63 - 1` and
`sampleSize = 2`, the 64-bit product `size * i` wraps for large `i`, so on
the 5-byte file `[1,0,0,2,3]` the code hashes windows at offsets `[0,1,3]`
(signature `"5|31|0|65|"`) while the claim's exact-arithmetic offset formula
gives `[0,1,2,3,4]` (signature `"5|31|0|2|65|3|"`). -/
theorem generateFileSignature_overflow_cex :
    generateFileSignature 9223372036854775807 2 [1, 0, 0, 2, 3]
      ≠ specSignature 9223372036854775807 2 [1, 0, 0, 2, 3] := by
  have h1 : generateFileSignature 9223372036854775807 2 [1, 0, 0, 2, 3] = "5|31|0|65|" := by
    unfold generateFileSignature
    rw [if_neg (by decide)]
    unfold signatureHashPath
    rw [show ([1, 0, 0, 2, 3] : List Nat).length = 5 from rfl, keyPositions_overflow_value]
    decide
  have h2 : specSignature 9223372036854775807 2 [1, 0, 0, 2, 3] = "5|31|0|2|65|3|" := by
    unfold specSignature
    rw [show ([1, 0, 0, 2, 3] : List Nat).length = 5 from rfl, specOffsets_overflow_value]
    decide
  rw [h1, h2]
  decide
